import Mathlib

/-!
Verification of the graph/heap/Dijkstra core of the pedestrian-routing
repository (files `graph.py`, `heap.py`, `shortestpath.py`).

The Python code is shallowly embedded:
* the array-backed generic binary heap (`heap.py`) becomes pure functions on
  `List α` parameterised by a comparator `comp : α → α → Bool` (true means
  "out of order, swap") and an identity predicate used by `reconstruct`;
* the two sift loops (`__reconstruct_bottomup_raw`, `__reconstruct_topdown_raw`)
  become structurally recursive functions with an explicit fuel argument that
  bounds the number of loop iterations; every top-level entry point passes a
  fuel that is provably sufficient, so the fuel is only a termination device;
* Python `raise` becomes `Except PyErr`; float distances become `Int`;
* the aliased mutable `Distance` records of `shortestpath.py` (shared between
  the `ds` dictionary and the heap) are modelled by storing node ids in the
  heap and reading the current values through the `ds` map, exactly the
  observable behaviour of the shared references.
-/

namespace OsmRouting

/-- Python exceptions raised (or raisable) by the embedded code.
`nonterm` is an artifact of the fuel-based embedding of the unbounded
`while` loops: it is returned when fuel runs out, a situation the proofs
show unreachable for the fuels chosen by the top-level entry points. -/
inductive PyErr where
  | runtimeError (args : List String)
  | keyError (key : String)
  | nonterm
deriving DecidableEq, Repr

/-- The Python class of an exception value; both user-facing failures of
`ShortestPath.calc` are `RuntimeError` instances. -/
def PyErr.cls : PyErr → String
  | .runtimeError _ => "RuntimeError"
  | .keyError _ => "KeyError"
  | .nonterm => "Nonterm"

section Heap

variable {α β : Type}

/-- `Heap.__swapNode` (heap.py): exchange the elements at indices `i` and `j`. -/
def swapNode (l : List α) (i j : Nat) : List α :=
  match l[i]?, l[j]? with
  | some a, some b => (l.set i b).set j a
  | _, _ => l

/-- `Heap.__reconstruct_bottomup_raw` (heap.py): sift the element at `idx`
upward, swapping with its parent `(idx-1)/2` while the comparator reports
disorder.  The fuel bounds the iteration count of the `while` loop; `idx`
itself is always sufficient since the index strictly decreases. -/
def siftUpAux (comp : α → α → Bool) : Nat → List α → Nat → List α
  | 0, l, _ => l
  | fuel + 1, l, idx =>
    if idx = 0 then l
    else
      let p := (idx - 1) / 2
      match l[p]?, l[idx]? with
      | some a, some b =>
        if comp a b then siftUpAux comp fuel (swapNode l p idx) p else l
      | _, _ => l

/-- `Heap.__reconstruct_bottomup_raw` with its provably sufficient fuel. -/
def siftUp (comp : α → α → Bool) (l : List α) (idx : Nat) : List α :=
  siftUpAux comp idx l idx

/-- Lines 263–266 of heap.py: with both children present, the comparator is
asked about (right, left); on `true` the left child is selected, otherwise
the right child. -/
def pickChild (comp : α → α → Bool) (vl vr : α) (li ri : Nat) : Nat :=
  if comp vr vl then li else ri

/-- What the specification asserts about the same selection: the right child
is selected only when the comparator strictly prefers it, so ties go to the
left/first child. -/
def pickChildSpec (comp : α → α → Bool) (vl vr : α) (li ri : Nat) : Nat :=
  if comp vl vr then ri else li

/-- `Heap.__reconstruct_topdown_raw` (heap.py): sift the element at `idx`
downward.  Children indices are `(idx+1)*2-1 = 2*idx+1` and
`(idx+1)*2 = 2*idx+2`; an index is absent when it exceeds `len-1`.  A right
child without a left child raises the internal-invariant `RuntimeError`.
The fuel bounds the iteration count of the `while` loop. -/
def siftDownAux (comp : α → α → Bool) : Nat → List α → Nat → Except PyErr (List α)
  | 0, l, _ => .ok l
  | fuel + 1, l, idx =>
    let n := l.length
    let li := 2 * idx + 1
    let ri := 2 * idx + 2
    if n ≤ li then
      if n ≤ ri then .ok l
      else .error (.runtimeError ["Logical Error: check heap algorithum."])
    else
      if n ≤ ri then
        match l[idx]?, l[li]? with
        | some a, some b =>
          if comp a b then siftDownAux comp fuel (swapNode l idx li) li else .ok l
        | _, _ => .ok l
      else
        match l[li]?, l[ri]? with
        | some bl, some br =>
          let t := pickChild comp bl br li ri
          match l[idx]?, l[t]? with
          | some a, some c =>
            if comp a c then siftDownAux comp fuel (swapNode l idx t) t else .ok l
          | _, _ => .ok l
        | _, _ => .ok l

/-- `Heap.__reconstruct_topdown_raw` with its provably sufficient fuel. -/
def siftDown (comp : α → α → Bool) (l : List α) (idx : Nat) : Except PyErr (List α) :=
  siftDownAux comp (l.length + 1) l idx

/-- `Heap.__reconstruct_bottomup` (heap.py): guard on size then sift the last
element upward. -/
def reconstructBottomupFull (comp : α → α → Bool) (l : List α) : List α :=
  if l.length ≤ 1 then l else siftUp comp l (l.length - 1)

/-- `Heap.__reconstruct_topdown` (heap.py): guard on size then sift the root
downward. -/
def reconstructTopdownFull (comp : α → α → Bool) (l : List α) : Except PyErr (List α) :=
  if l.length ≤ 1 then .ok l else siftDown comp l 0

/-- `Heap.append` (heap.py): push at the tail, then bottom-up reconstruction.
(The Python `target is None` guard is unrepresentable for a value of `α`.) -/
def appendH (comp : α → α → Bool) (l : List α) (x : α) : List α :=
  reconstructBottomupFull comp (l ++ [x])

/-- `Heap.pop` (heap.py): remove the root, move the last element to the root
slot and sift it downward. -/
def popH (comp : α → α → Bool) (l : List α) : Except PyErr (Option α × List α) :=
  match l with
  | [] => .ok (none, [])
  | [x] => .ok (some x, [])
  | x :: y :: rest =>
    match reconstructTopdownFull comp (((x :: y :: rest).dropLast).set 0 (rest.getLastD y)) with
    | .ok l2 => .ok (some x, l2)
    | .error e => .error e

/-- The linear scan of `Heap.reconstruct` (heap.py lines 172–178): index of
the first element identity-equal to the target, if any. -/
def findIdxScan (eqp : α → β → Bool) (t : β) : List α → Nat → Option Nat
  | [], _ => none
  | x :: xs, i => if eqp x t then some i else findIdxScan eqp t xs (i + 1)

/-- `Heap.reconstruct` (heap.py): locate the target by identity, then sift
up or down from the found position; when nothing matches, the found index is
`-1` and both raw sift routines return immediately (the `idx < 0` guards). -/
def reconstructH (comp : α → α → Bool) (eqp : α → β → Bool) (l : List α) (t : β)
    (isBottomUp : Bool) : Except PyErr (List α) :=
  match findIdxScan eqp t l 0 with
  | none => .ok l
  | some i => if isBottomUp then .ok (siftUp comp l i) else siftDown comp l i

/-- Boolean form of the heap-shape invariant: every non-root element is in
order with its parent `(i-1)/2` under the comparator (the comparator
returning `false` means "in order"). -/
def heapValidB (comp : α → α → Bool) (l : List α) : Bool :=
  (List.range l.length).all fun i =>
    if i = 0 then true
    else
      match l[(i - 1) / 2]?, l[i]? with
      | some a, some b => !comp a b
      | _, _ => true

/-- The heap invariant, as a proposition. -/
def heapValid (comp : α → α → Bool) (l : List α) : Prop :=
  heapValidB comp l = true

/-- The three public mutating operations of `Heap`. -/
inductive HeapOp (α β : Type) where
  | app (x : α)
  | pop
  | reconstruct (t : β) (dir : Bool)

/-- Apply one public heap operation to the backing array.  `pop` and a
top-down `reconstruct` return `Except`; the error branches are unreachable
(`siftDown_ok`) and keep the array unchanged. -/
def applyOp (comp : α → α → Bool) (eqp : α → β → Bool) (l : List α) :
    HeapOp α β → List α
  | .app x => appendH comp l x
  | .pop =>
    match popH comp l with
    | .ok (_, l2) => l2
    | .error _ => l
  | .reconstruct t dir =>
    match reconstructH comp eqp l t dir with
    | .ok l2 => l2
    | .error _ => l

/-- Run a sequence of public heap operations starting from the empty heap. -/
def applyOps (comp : α → α → Bool) (eqp : α → β → Bool) (ops : List (HeapOp α β)) : List α :=
  ops.foldl (applyOp comp eqp) []

/-- Build a heap by `append`ing the given payloads in order. -/
def buildH (comp : α → α → Bool) (xs : List α) : List α :=
  xs.foldl (appendH comp) []

/-- Pop repeatedly until the heap is empty, collecting the payloads. -/
def popAllAux (comp : α → α → Bool) : Nat → List α → List α
  | 0, _ => []
  | fuel + 1, l =>
    match popH comp l with
    | .ok (some x, l2) => x :: popAllAux comp fuel l2
    | _ => []

/-- Pop repeatedly until the heap is empty (the heap shrinks by one element
per pop, so `l.length` is sufficient fuel). -/
def popAll (comp : α → α → Bool) (l : List α) : List α :=
  popAllAux comp l.length l

/-- The default comparator of `Heap` (heap.py line 198): `node1.val >
node2.val`, a min-heap on the extracted values. -/
def compDefault (val : α → Int) (a b : α) : Bool :=
  decide (val b < val a)

instance (comp : α → α → Bool) (l : List α) : Decidable (heapValid comp l) :=
  inferInstanceAs (Decidable (heapValidB comp l = true))

/-- State of an upward sift: every parent/child pair is in order except
possibly the one above `idx`, and the children of `idx` (if any) are in
order even with `idx`'s parent.  `appendH` and a decreased key both
establish this. -/
def upInv (comp : α → α → Bool) (l : List α) (idx : Nat) : Prop :=
  (∀ i a b, 0 < i → i ≠ idx → l[(i - 1) / 2]? = some a → l[i]? = some b →
    comp a b = false) ∧
  (∀ j g c, 0 < idx → (j = 2 * idx + 1 ∨ j = 2 * idx + 2) →
    l[(idx - 1) / 2]? = some g → l[j]? = some c → comp g c = false)

/-- State of a downward sift: every parent/child pair is in order except
possibly those below `idx`, and the children of `idx` (if any) are in order
even with `idx`'s parent.  `popH` establishes this at the root. -/
def downInv (comp : α → α → Bool) (l : List α) (idx : Nat) : Prop :=
  (∀ i a b, 0 < i → (i - 1) / 2 ≠ idx → l[(i - 1) / 2]? = some a → l[i]? = some b →
    comp a b = false) ∧
  (∀ j g c, 0 < idx → (j = 2 * idx + 1 ∨ j = 2 * idx + 2) →
    l[(idx - 1) / 2]? = some g → l[j]? = some c → comp g c = false)

/-- A comparator whose negation is a total preorder: what `Heap` expects of
its `comparer` (true means "swap needed", so at most one direction may
demand a swap, and "in order" must be transitive).  The default comparator
satisfies both. -/
def CompLawful (comp : α → α → Bool) : Prop :=
  (∀ a b, comp a b = true → comp b a = false) ∧
  (∀ a b c, comp a b = false → comp b c = false → comp a c = false)

/-- Position-wise "in order" relation between two arrays: every element of
`m` is at most (never "worse than") the element of `L` at the same index. -/
def PtLe (comp : α → α → Bool) (m L : List α) : Prop :=
  ∀ (j : Nat) (a b : α), m[j]? = some a → L[j]? = some b → comp a b = false

end Heap

section GraphModel

/-- `Edge` (graph.py): destination node id and the distance to it. -/
structure Edge where
  dstId : String
  distance : Int
deriving DecidableEq, Repr

/-- `Node` (graph.py): id, geographic position, auxiliary tags (opaque, the
core never reads them) and the adjacency list. -/
structure Node where
  id : String
  lat : Int
  lon : Int
  tags : List String
  adj : List Edge
deriving DecidableEq, Repr

/-- `Node.getAdjacents` (graph.py). -/
def Node.getAdjacents (n : Node) : List Edge :=
  n.adj

/-- `Node.getDistance` (graph.py): linear scan for the first edge with the
given destination. -/
def Node.getDistance (n : Node) (id : String) : Option Int :=
  (n.adj.find? fun e => id == e.dstId).map Edge.distance

/-- `Node.isExist` (graph.py): whether the destination is already adjacent. -/
def Node.isExist (n : Node) (id : String) : Bool :=
  (n.getDistance id).isSome

/-- `Node.addAdjacent` (graph.py): append an edge unless the destination is
already present or the distance is absent. -/
def Node.addAdjacent (n : Node) (id : String) (distance : Option Int) : Node :=
  if !(n.isExist id) then
    match distance with
    | some d => { n with adj := n.adj ++ [⟨id, d⟩] }
    | none => n
  else n

/-- `Graph` (graph.py): the node dictionary, keyed by `Node.id` (insertion
ordered; `addNode` keeps ids unique, so a list of nodes). -/
structure Graph where
  nodes : List Node
deriving Repr

/-- `Graph.isExist` (graph.py). -/
def Graph.isExist (g : Graph) (id : String) : Bool :=
  g.nodes.any fun nd => nd.id == id

/-- `Graph.addNode` (graph.py): first writer wins. -/
def Graph.addNode (g : Graph) (n : Node) : Graph :=
  if g.isExist n.id then g else ⟨g.nodes ++ [n]⟩

/-- `Graph.get` (graph.py): dictionary lookup by id. -/
def Graph.get (g : Graph) (id : String) : Option Node :=
  g.nodes.find? fun nd => nd.id == id

/-- Harness helper modelling the importer's `gr.get(src).addAdjacent(dst, d)`
in-place mutation: rebuild the graph with the source node updated. -/
def Graph.addAdjacentTo (g : Graph) (srcId dstId : String) (d : Int) : Graph :=
  ⟨g.nodes.map fun n => if n.id == srcId then n.addAdjacent dstId (some d) else n⟩

end GraphModel

section Dijkstra

/-- `Distance` (shortestpath.py): per-query record; `-1` is the "not yet
reached" sentinel and `parent` the predecessor on the best-known path. -/
structure Distance where
  id : String
  distance : Int
  parent : Option String
deriving DecidableEq, Repr

/-- The per-query distance table `ds`: Python dict from node id to its
(mutable, shared) `Distance` record. -/
abbrev DsMap := String → Option Distance

/-- `HeapNode.val` through the `_get_val` accessor: the current distance of
the record the heap element aliases.  Heap elements are node ids; on every
state reachable by `calc` the id is a key of `ds`, so the default is never
read. -/
def dsDistance (ds : DsMap) (i : String) : Int :=
  match ds i with
  | some d => d.distance
  | none => -1

/-- The heap comparator used by `calc`: the default min-heap comparator
reading the live distance values through the shared records. -/
def heapComp (ds : DsMap) : String → String → Bool :=
  compDefault (dsDistance ds)

/-- `_dist_comp` (shortestpath.py): identity of a heap element (a node id)
with a target `Distance` record is id equality. -/
def heapEq (i : String) (t : Distance) : Bool :=
  i == t.id

/-- The `for nd in self.__gr.nodesList.values()` initialisation: one record
per graph node, distance `-1`, no parent. -/
def initDs (gr : Graph) : DsMap :=
  fun id => if gr.isExist id then some ⟨id, -1, none⟩ else none

/-- The relaxation `for edge in adjs` loop of `calc` (shortestpath.py lines
98–114).  Returns the error raised (if any) together with the state at that
point: the distance table, the heap and the append trace (ids appended, in
order).  `dist_cur` is re-read from `ds` on every iteration, as in Python. -/
def relaxEdges (ndId : String) :
    List Edge → DsMap → List String → List String →
      Option PyErr × DsMap × List String × List String
  | [], ds, h, apps => (none, ds, h, apps)
  | e :: rest, ds, h, apps =>
    match ds ndId with
    | none => (some (.keyError ndId), ds, h, apps)
    | some distCur =>
      match ds e.dstId with
      | none => (some (.keyError e.dstId), ds, h, apps)
      | some distAdj =>
        if distAdj.distance < 0 then
          let upd : Distance :=
            { distAdj with distance := distCur.distance + e.distance, parent := some ndId }
          let ds2 : DsMap := fun k => if k = e.dstId then some upd else ds k
          relaxEdges ndId rest ds2 (appendH (heapComp ds2) h e.dstId) (apps ++ [e.dstId])
        else
          if distCur.distance + e.distance < distAdj.distance then
            let upd : Distance :=
              { distAdj with distance := distCur.distance + e.distance, parent := some ndId }
            let ds2 : DsMap := fun k => if k = e.dstId then some upd else ds k
            match reconstructH (heapComp ds2) heapEq h upd true with
            | .ok h2 => relaxEdges ndId rest ds2 h2 apps
            | .error err => (some err, ds2, h, apps)
          else
            relaxEdges ndId rest ds h apps

/-- State of one `calc` run: the distance table, the heap contents (node
ids), and the traces of appended and popped ids. -/
structure RunSt where
  ds : DsMap
  h : List String
  apps : List String
  pops : List String

/-- The `while (True)` search loop of `calc` (shortestpath.py lines 81–114).
Returns `none` when the target was popped (the `break`), otherwise the raised
error, in both cases together with the state at that point. -/
def dijkstraLoop (gr : Graph) (edId : String) : Nat → RunSt → Option PyErr × RunSt
  | 0, s => (some .nonterm, s)
  | fuel + 1, s =>
    match popH (heapComp s.ds) s.h with
    | .error e => (some e, s)
    | .ok (none, h2) =>
      (some (.runtimeError ["Cannot reach destination"]), { s with h := h2 })
    | .ok (some did, h2) =>
      let s1 : RunSt := { s with h := h2, pops := s.pops ++ [did] }
      if did = edId then (none, s1)
      else
        match gr.get did with
        | none => (some (.runtimeError ["Invalid node id: " ++ did]), s1)
        | some nd =>
          match relaxEdges nd.id nd.getAdjacents s1.ds s1.h s1.apps with
          | (some e, ds2, h3, apps2) => (some e, { ds := ds2, h := h3, apps := apps2, pops := s1.pops })
          | (none, ds2, h3, apps2) =>
            dijkstraLoop gr edId fuel { ds := ds2, h := h3, apps := apps2, pops := s1.pops }

/-- The path-reconstruction loop of `calc` (shortestpath.py lines 117–121):
follow `parent` links from the target, collecting records target-first.  The
fuel bounds the walk (the parent chain of a completed run is acyclic and
shorter than the node count). -/
def pathBuild (ds : DsMap) : Nat → String → Except PyErr (List Distance)
  | 0, _ => .error .nonterm
  | fuel + 1, i =>
    match ds i with
    | none => .error (.keyError i)
    | some d =>
      match d.parent with
      | none => .ok [d]
      | some p =>
        match pathBuild ds fuel p with
        | .ok rest => .ok (d :: rest)
        | .error e => .error e

/-- `ShortestPath.calc` (shortestpath.py), instrumented: returns the result
together with the final run state (distance table, heap, append/pop traces).
The loop fuel `gr.nodes.length + 1` is provably sufficient on well-formed
graphs. -/
def calcT (gr : Graph) (stId edId : String) : Except PyErr (List Distance) × RunSt :=
  match gr.get stId with
  | none =>
    (.error (.runtimeError ["Node of stId is missing.", stId]), ⟨initDs gr, [], [], []⟩)
  | some nd =>
    -- `ds[nd.id].distance = 0`: the source record is `⟨nd.id, -1, none⟩`.
    let ds1 : DsMap := fun k => if k = nd.id then some ⟨nd.id, 0, none⟩ else initDs gr k
    let s0 : RunSt := ⟨ds1, appendH (heapComp ds1) [] nd.id, [nd.id], []⟩
    match dijkstraLoop gr edId (gr.nodes.length + 1) s0 with
    | (some e, s2) => (.error e, s2)
    | (none, s2) =>
      match pathBuild s2.ds (gr.nodes.length + 1) edId with
      | .ok res => (.ok res.reverse, s2)
      | .error e => (.error e, s2)

/-- `ShortestPath.calc` (shortestpath.py). -/
def ShortestPath.calc (gr : Graph) (stId edId : String) : Except PyErr (List Distance) :=
  (calcT gr stId edId).1

/-- The run invariant behind "a node is appended at most once": the append
trace has no duplicates, every heap id has been appended, every appended id
has a non-negative recorded distance, and ids with a negative (sentinel)
distance were never appended. -/
def C5Inv (ds : DsMap) (h apps : List String) : Prop :=
  apps.Nodup ∧
  (∀ i ∈ h, i ∈ apps) ∧
  (∀ i ∈ apps, ∃ d, ds i = some d ∧ 0 ≤ d.distance) ∧
  (∀ i d, ds i = some d → d.distance < 0 → i ∉ apps)

/-- A well-formed graph, as the importer builds it: node ids are unique
(they are the keys of a Python dict), edge weights are non-negative and
every adjacency destination is itself a node of the graph. -/
def Graph.wf (gr : Graph) : Prop :=
  (gr.nodes.map Node.id).Nodup ∧
  ∀ nd ∈ gr.nodes, ∀ e ∈ nd.adj, 0 ≤ e.distance ∧ gr.isExist e.dstId = true

instance (gr : Graph) : Decidable gr.wf :=
  inferInstanceAs (Decidable (_ ∧ _))

end Dijkstra

section TestData

/-- The four-node graph of the Dijkstra correctness test: nodes `A,B,C,D`,
symmetric edges `A–B = 1`, `B–C = 2`, `A–C = 4`, `C–D = 1`. -/
def graphC1 : Graph :=
  (((((((Graph.mk []).addNode ⟨"A", 0, 0, [], []⟩).addNode
      ⟨"B", 0, 0, [], []⟩).addNode ⟨"C", 0, 0, [], []⟩).addNode
      ⟨"D", 0, 0, [], []⟩).addAdjacentTo "A" "B" 1 |>.addAdjacentTo "B" "A" 1
      |>.addAdjacentTo "B" "C" 2 |>.addAdjacentTo "C" "B" 2
      |>.addAdjacentTo "A" "C" 4 |>.addAdjacentTo "C" "A" 4
      |>.addAdjacentTo "C" "D" 1) |>.addAdjacentTo "D" "C" 1)

/-- A two-node graph whose target `Z` is isolated: `calc "A" "Z"` exhausts
the heap. -/
def graphIsolated : Graph :=
  ((Graph.mk []).addNode ⟨"A", 0, 0, [], []⟩).addNode ⟨"Z", 0, 0, [], []⟩

/-- A graph without the node `A`: `calc "A" _` fails before the search. -/
def graphNoSource : Graph :=
  (Graph.mk []).addNode ⟨"B", 0, 0, [], []⟩

end TestData

/-! ### Basic facts about the heap primitives -/

section HeapLemmas

variable {α β : Type} {comp : α → α → Bool} {eqp : α → β → Bool}

theorem swapNode_length (l : List α) (i j : Nat) : (swapNode l i j).length = l.length := by
  unfold swapNode
  split <;> simp

theorem getElem?_swapNode (l : List α) {i j : Nat} (hi : i < l.length) (hj : j < l.length)
    (k : Nat) :
    (swapNode l i j)[k]? = if k = i then l[j]? else if k = j then l[i]? else l[k]? := by
  unfold swapNode
  rw [List.getElem?_eq_getElem hi, List.getElem?_eq_getElem hj]
  simp only [List.getElem?_set, List.length_set]
  rcases eq_or_ne k i with rfl | hki
  · rcases eq_or_ne k j with rfl | hkj
    · simp [List.getElem?_eq_getElem, hi]
    · simp [Ne.symm hkj, hi, List.getElem?_eq_getElem]
  · rcases eq_or_ne k j with rfl | hkj
    · simp [Ne.symm hki, hki, hj, List.getElem?_eq_getElem]
    · simp [Ne.symm hki, Ne.symm hkj, hki, hkj]

theorem mem_swapNode {l : List α} {i j : Nat} (hi : i < l.length) (hj : j < l.length)
    (x : α) : x ∈ swapNode l i j ↔ x ∈ l := by
  simp only [List.mem_iff_getElem?]
  constructor
  · rintro ⟨n, hn⟩
    rw [getElem?_swapNode l hi hj n] at hn
    split at hn
    · exact ⟨j, hn⟩
    · split at hn
      · exact ⟨i, hn⟩
      · exact ⟨n, hn⟩
  · rintro ⟨n, hn⟩
    rcases eq_or_ne n i with rfl | hni
    · refine ⟨j, ?_⟩
      rw [getElem?_swapNode l hi hj j]
      rcases eq_or_ne j n with h | h
      · simpa [h] using hn
      · simp [h, hn]
    · rcases eq_or_ne n j with rfl | hnj
      · refine ⟨i, ?_⟩
        rw [getElem?_swapNode l hi hj i]
        simp [hn]
      · exact ⟨n, by rw [getElem?_swapNode l hi hj n, if_neg hni, if_neg hnj]; exact hn⟩

theorem getElem?_eq_some_get {l : List α} {n : Nat} (h : n < l.length) :
    l[n]? = some (l.get ⟨n, h⟩) := by
  rw [List.getElem?_eq_getElem h]
  simp [List.get_eq_getElem]

theorem siftUpAux_length (fuel : Nat) (l : List α) (idx : Nat) :
    (siftUpAux comp fuel l idx).length = l.length := by
  induction fuel generalizing l idx with
  | zero => rfl
  | succ fuel ih =>
    simp only [siftUpAux]
    split
    · rfl
    · split
      · split
        · rw [ih, swapNode_length]
        · rfl
      · rfl

theorem siftDownAux_length (fuel : Nat) :
    ∀ (l : List α) (idx : Nat) (l2 : List α),
      siftDownAux comp fuel l idx = .ok l2 → l2.length = l.length := by
  induction fuel with
  | zero => intro l idx l2 h; cases h; rfl
  | succ fuel ih =>
    intro l idx l2 h
    simp only [siftDownAux] at h
    split at h
    · split at h
      · cases h; rfl
      · cases h
    · split at h
      · split at h
        · split at h
          · rw [ih _ _ _ h, swapNode_length]
          · cases h; rfl
        · cases h; rfl
      · split at h
        · split at h
          · split at h
            · rw [ih _ _ _ h, swapNode_length]
            · cases h; rfl
          · cases h; rfl
        · cases h; rfl

theorem siftDownAux_ok (comp : α → α → Bool) (fuel : Nat) (l : List α) (idx : Nat) :
    ∃ l2, siftDownAux comp fuel l idx = .ok l2 := by
  induction fuel generalizing l idx with
  | zero => exact ⟨l, rfl⟩
  | succ fuel ih =>
    simp only [siftDownAux]
    split
    case _ hli =>
      split
      case _ => exact ⟨l, rfl⟩
      case _ hri => omega
    case _ =>
      split
      · split
        · split
          · exact ih _ _
          · exact ⟨l, rfl⟩
        · exact ⟨l, rfl⟩
      · split
        · split
          · split
            · exact ih _ _
            · exact ⟨l, rfl⟩
          · exact ⟨l, rfl⟩
        · exact ⟨l, rfl⟩

theorem appendH_nil (comp : α → α → Bool) (x : α) : appendH comp [] x = [x] :=
  rfl

theorem findIdxScan_eq_none {eqp : α → β → Bool} {t : β} :
    ∀ (l : List α) (i : Nat), (∀ x ∈ l, eqp x t = false) → findIdxScan eqp t l i = none := by
  intro l
  induction l with
  | nil => intro i _; rfl
  | cons x xs ih =>
    intro i h
    simp only [findIdxScan]
    rw [h x (by simp), ih (i + 1) fun y hy => h y (by simp [hy])]
    rfl

end HeapLemmas

/-! ### Claims C9, C7, C3 -/

section EasyClaims

variable {α β : Type}

/-- C9: in `pop`'s top-down sift over the dense backing array, "left child
index out of array bounds while right child index is in bounds" is
unreachable for every start index and every array length (the right index
`2*idx+2` exceeds the left index `2*idx+1`), so the fatal internal-invariant
`RuntimeError` branch of `__reconstruct_topdown_raw` never executes: the
routine always returns normally. -/
theorem siftDown_never_raises (comp : α → α → Bool) (l : List α) (idx : Nat) :
    ∃ l2, siftDown comp l idx = .ok l2 :=
  siftDownAux_ok comp (l.length + 1) l idx

/-- C7: when no element of the heap is identity-equal to the payload, the
scan of `reconstruct` finds nothing, both raw sift routines get a negative
index and return at their guard, so the call raises no error and leaves the
backing array unchanged. -/
theorem reconstruct_no_match_noop (comp : α → α → Bool) (eqp : α → β → Bool)
    (l : List α) (t : β) (dir : Bool) (h : ∀ x ∈ l, eqp x t = false) :
    reconstructH comp eqp l t dir = .ok l := by
  unfold reconstructH
  rw [findIdxScan_eq_none l 0 h]

theorem reconstruct_no_match_noop_witness :
    (∀ x ∈ ([("a", 1), ("b", 2)] : List (String × Int)), (x.1 == "z") = false) ∧
    reconstructH (compDefault Prod.snd) (fun x t => x.1 == t)
      ([("a", 1), ("b", 2)] : List (String × Int)) "z" false = .ok [("a", 1), ("b", 2)] :=
  ⟨by decide, reconstruct_no_match_noop _ _ _ _ _ (by decide)⟩

/-- C3 counterexample: under the default min-heap comparator two elements
with equal extraction values tie (the comparator prefers neither), yet
`pickChild` — the literal translation of heap.py lines 263–266 — selects
index 2, the RIGHT child, not the left child index 1 the claim requires;
consequently sifting `[p:5, x:3, y:3]` down from the root swaps the right
child `y` to the root. -/
theorem pop_tie_counterexample :
    compDefault Prod.snd (("y", 3) : String × Int) ("x", 3) = false ∧
    compDefault Prod.snd (("x", 3) : String × Int) ("y", 3) = false ∧
    pickChild (compDefault Prod.snd) (("x", 3) : String × Int) ("y", 3) 1 2 = 2 ∧
    pickChildSpec (compDefault Prod.snd) (("x", 3) : String × Int) ("y", 3) 1 2 = 1 ∧
    siftDown (compDefault Prod.snd) ([("p", 5), ("x", 3), ("y", 3)] : List (String × Int)) 0 =
      .ok [("y", 3), ("x", 3), ("p", 5)] :=
  ⟨rfl, rfl, rfl, rfl, rfl⟩

/-- C3 amended: with both children present, the child the comparator prefers
is selected for the comparison-and-swap step; when the comparator prefers
neither child (a tie), the RIGHT/second child is the one selected. -/
theorem pop_child_selection (val : α → Int) (p a b : α)
    (hpa : val a < val p) (hpb : val b < val p) :
    siftDown (compDefault val) [p, a, b] 0 =
      .ok (if val a < val b then [a, p, b] else [b, a, p]) := by
  by_cases h : val a < val b
  · simp [siftDown, siftDownAux, pickChild, compDefault, swapNode, hpa, hpb, h]
  · simp [siftDown, siftDownAux, pickChild, compDefault, swapNode, hpa, hpb, h]

theorem pop_child_selection_witness :
    ((3 : Int) < 5 ∧ (3 : Int) < 5) ∧
    siftDown (compDefault Prod.snd) ([("p", 5), ("x", 3), ("y", 3)] : List (String × Int)) 0 =
      .ok (if (3 : Int) < 3 then [("x", 3), ("p", 5), ("y", 3)]
        else [("y", 3), ("x", 3), ("p", 5)]) :=
  ⟨⟨by decide, by decide⟩,
    pop_child_selection Prod.snd ("p", 5) ("x", 3) ("y", 3) (by decide) (by decide)⟩

end EasyClaims

/-! ### The heap invariant is preserved by the public operations -/

section HeapInvariant

variable {α β : Type} {comp : α → α → Bool} {eqp : α → β → Bool}

theorem heapValid_iff (comp : α → α → Bool) (l : List α) :
    heapValid comp l ↔
      ∀ i a b, 0 < i → l[(i - 1) / 2]? = some a → l[i]? = some b → comp a b = false := by
  unfold heapValid heapValidB
  rw [List.all_eq_true]
  constructor
  · intro h i a b hi ha hb
    have hilen : i < l.length := (List.getElem?_eq_some.mp hb).1
    have := h i (by simpa using hilen)
    rw [if_neg (by omega), ha, hb] at this
    simpa using this
  · intro h i hi
    simp only [List.mem_range] at hi
    split
    · rfl
    case _ hne =>
      cases ha : l[(i - 1) / 2]? with
      | none => rfl
      | some a =>
        cases hb : l[i]? with
        | none => rfl
        | some b => simpa using h i a b (by omega) ha hb

theorem CompLawful.not_self (hc : CompLawful comp) (a : α) : comp a a = false := by
  cases h : comp a a with
  | false => rfl
  | true => exact absurd (hc.1 a a h) (by simp [h])

theorem compDefault_lawful (val : α → Int) : CompLawful (compDefault val) := by
  constructor
  · intro a b h
    simp only [compDefault, decide_eq_true_eq] at h
    simp only [compDefault, decide_eq_false_iff_not]
    omega
  · intro a b c hab hbc
    simp only [compDefault, decide_eq_false_iff_not] at hab hbc
    simp only [compDefault, decide_eq_false_iff_not]
    omega

theorem upInv_swap (hc : CompLawful comp) {l : List α} {idx : Nat} {a b : α}
    (hidx : idx ≠ 0) (ha : l[(idx - 1) / 2]? = some a) (hb : l[idx]? = some b)
    (hcomp : comp a b = true) (hinv : upInv comp l idx) :
    upInv comp (swapNode l ((idx - 1) / 2) idx) ((idx - 1) / 2) := by
  have hplen : (idx - 1) / 2 < l.length := (List.getElem?_eq_some.mp ha).1
  have hilen : idx < l.length := (List.getElem?_eq_some.mp hb).1
  have hplt : (idx - 1) / 2 < idx := by omega
  have hacc := getElem?_swapNode l hplen hilen
  constructor
  · intro i x y hi hip hx hy
    rw [hacc] at hx hy
    rcases eq_or_ne i idx with rfl | hii
    · rw [if_neg (by omega), if_pos rfl, ha] at hy
      rw [if_pos rfl, hb] at hx
      cases hx; cases hy
      exact hc.1 _ _ hcomp
    · rw [if_neg hip, if_neg hii] at hy
      rcases eq_or_ne ((i - 1) / 2) ((idx - 1) / 2) with hq | hq
      · rw [if_pos hq, hb] at hx
        cases hx
        have h1 : comp a y = false :=
          hinv.1 i a y hi hii (by rw [hq]; exact ha) hy
        exact hc.2 _ _ _ (hc.1 _ _ hcomp) h1
      · rcases eq_or_ne ((i - 1) / 2) idx with hq2 | hq2
        · rw [if_neg hq, if_pos hq2, ha] at hx
          cases hx
          exact hinv.2 i a y (by omega) (by omega) ha hy
        · rw [if_neg hq, if_neg hq2] at hx
          exact hinv.1 i x y hi hii hx hy
  · intro j g c hpz hj hg hc2
    rw [hacc] at hg hc2
    rw [if_neg (by omega), if_neg (by omega)] at hg
    have hgp : comp g a = false :=
      hinv.1 _ g a hpz (by omega) hg ha
    rcases eq_or_ne j idx with rfl | hji
    · rw [if_neg (by omega), if_pos rfl, ha] at hc2
      cases hc2
      exact hgp
    · rw [if_neg (by omega), if_neg hji] at hc2
      have hac : comp a c = false :=
        hinv.1 j a c (by omega) hji (by rw [show (j - 1) / 2 = (idx - 1) / 2 by omega]; exact ha) hc2
      exact hc.2 _ _ _ hgp hac

theorem siftUpAux_valid (hc : CompLawful comp) :
    ∀ (fuel : Nat) (l : List α) (idx : Nat), idx ≤ fuel → upInv comp l idx →
      heapValid comp (siftUpAux comp fuel l idx) := by
  intro fuel
  induction fuel with
  | zero =>
    intro l idx hle hinv
    have hidx : idx = 0 := by omega
    subst hidx
    rw [heapValid_iff]
    intro i a b hi ha hb
    exact hinv.1 i a b hi (by omega) ha hb
  | succ fuel ih =>
    intro l idx hle hinv
    simp only [siftUpAux]
    split
    case _ h0 =>
      subst h0
      rw [heapValid_iff]
      intro i a b hi ha hb
      exact hinv.1 i a b hi (by omega) ha hb
    case _ h0 =>
      split
      case _ a b hpa hib =>
        split
        case _ hcomp =>
          exact ih _ _ (by omega) (upInv_swap hc h0 hpa hib hcomp hinv)
        case _ hcomp =>
          rw [heapValid_iff]
          intro i x y hi hx hy
          rcases eq_or_ne i idx with rfl | hii
          · rw [hpa] at hx
            rw [hib] at hy
            cases hx; cases hy
            simpa using hcomp
          · exact hinv.1 i x y hi hii hx hy
      case _ hfall =>
        rw [heapValid_iff]
        intro i x y hi hx hy
        rcases eq_or_ne i idx with rfl | hii
        · exfalso
          have hilen : i < l.length := (List.getElem?_eq_some.mp hy).1
          have hplen : (i - 1) / 2 < l.length := by omega
          exact hfall (l.get ⟨(i - 1) / 2, hplen⟩) y (getElem?_eq_some_get hplen) hy
        · exact hinv.1 i x y hi hii hx hy

/-- `siftUp` from a position satisfying the upward-sift invariant restores
the full heap invariant. -/
theorem siftUp_valid (hc : CompLawful comp) {l : List α} {idx : Nat}
    (hinv : upInv comp l idx) : heapValid comp (siftUp comp l idx) :=
  siftUpAux_valid hc idx l idx le_rfl hinv

theorem downInv_swap (hc : CompLawful comp) {l : List α} {idx t : Nat} {a c : α}
    (ht : t = 2 * idx + 1 ∨ t = 2 * idx + 2) (ha : l[idx]? = some a) (hcel : l[t]? = some c)
    (hcomp : comp a c = true)
    (hoth : ∀ j y, (j = 2 * idx + 1 ∨ j = 2 * idx + 2) → j ≠ t → l[j]? = some y →
      comp c y = false)
    (hinv : downInv comp l idx) :
    downInv comp (swapNode l idx t) t := by
  have hilen : idx < l.length := (List.getElem?_eq_some.mp ha).1
  have htlen : t < l.length := (List.getElem?_eq_some.mp hcel).1
  have hit : idx < t := by omega
  have hacc := getElem?_swapNode l hilen htlen
  constructor
  · intro i x y hi hpar hx hy
    rw [hacc] at hx hy
    rcases eq_or_ne i idx with rfl | hii
    · rw [if_pos rfl, hcel] at hy
      cases hy
      rw [if_neg (by omega), if_neg (by omega)] at hx
      exact hinv.2 t x c (by omega) ht hx hcel
    · rcases eq_or_ne i t with rfl | hti
      · rw [if_neg (by omega), if_pos rfl, ha] at hy
        cases hy
        rw [if_pos (by omega), hcel] at hx
        cases hx
        exact hc.1 _ _ hcomp
      · rw [if_neg hii, if_neg hti] at hy
        rcases eq_or_ne ((i - 1) / 2) idx with hq | hq
        · rw [if_pos hq, hcel] at hx
          cases hx
          exact hoth i y (by omega) hti hy
        · rw [if_neg hq, if_neg hpar] at hx
          exact hinv.1 i x y hi hq hx hy
  · intro j g c2 htz hj hg hc2
    rw [hacc] at hg hc2
    rw [if_pos (by omega), hcel] at hg
    cases hg
    rw [if_neg (by omega), if_neg (by omega)] at hc2
    exact hinv.1 j c c2 (by omega) (by omega)
      (by rw [show (j - 1) / 2 = t by omega]; exact hcel) hc2

theorem heapValid_of_downInv {l : List α} {idx : Nat} (hinv : downInv comp l idx)
    (hli : ∀ x y, l[idx]? = some x → l[2 * idx + 1]? = some y → comp x y = false)
    (hri : ∀ x y, l[idx]? = some x → l[2 * idx + 2]? = some y → comp x y = false) :
    heapValid comp l := by
  rw [heapValid_iff]
  intro i x y hi hx hy
  rcases eq_or_ne ((i - 1) / 2) idx with hq | hq
  · rw [hq] at hx
    have : i = 2 * idx + 1 ∨ i = 2 * idx + 2 := by omega
    rcases this with rfl | rfl
    · exact hli x y hx hy
    · exact hri x y hx hy
  · exact hinv.1 i x y hi hq hx hy

theorem siftDownAux_valid (hc : CompLawful comp) :
    ∀ (fuel : Nat) (l : List α) (idx : Nat) (l2 : List α),
      l.length - idx < fuel → downInv comp l idx → siftDownAux comp fuel l idx = .ok l2 →
      heapValid comp l2 := by
  intro fuel
  induction fuel with
  | zero => intro l idx l2 hfuel; omega
  | succ fuel ih =>
    intro l idx l2 hfuel hinv heq
    simp only [siftDownAux] at heq
    split at heq
    case _ hli =>
      split at heq
      case _ hri =>
        cases heq
        refine heapValid_of_downInv hinv ?_ ?_
        · intro x y _ hy
          exact absurd (List.getElem?_eq_some.mp hy).1 (by omega)
        · intro x y _ hy
          exact absurd (List.getElem?_eq_some.mp hy).1 (by omega)
      case _ => cases heq
    case _ hli =>
      split at heq
      case _ hri =>
        -- only the left child exists
        split at heq
        case _ a b ha hb =>
          split at heq
          case _ hcomp =>
            refine ih _ _ _ (by rw [swapNode_length]; omega) ?_ heq
            refine downInv_swap hc (Or.inl rfl) ha hb hcomp ?_ hinv
            intro j y hj hjt hy
            exact absurd (List.getElem?_eq_some.mp hy).1 (by omega)
          case _ hcomp =>
            cases heq
            refine heapValid_of_downInv hinv ?_ ?_
            · intro x y hx hy
              rw [ha] at hx
              rw [hb] at hy
              cases hx; cases hy
              simpa using hcomp
            · intro x y _ hy
              exact absurd (List.getElem?_eq_some.mp hy).1 (by omega)
        case _ hfall =>
          exfalso
          have h1 : idx < l.length := by omega
          have h2 : 2 * idx + 1 < l.length := by omega
          exact hfall (l.get ⟨idx, h1⟩) (l.get ⟨2 * idx + 1, h2⟩)
            (getElem?_eq_some_get h1) (getElem?_eq_some_get h2)
      case _ hri =>
        -- both children exist
        split at heq
        case _ bl br hbl hbr =>
          simp only [pickChild] at heq
          cases hpick : comp br bl with
          | true =>
            rw [hpick, if_pos rfl] at heq
            split at heq
            case _ a c2 ha hcel =>
              split at heq
              case _ hcomp =>
                refine ih _ _ _ (by rw [swapNode_length]; omega) ?_ heq
                refine downInv_swap hc (Or.inl rfl) ha hcel hcomp ?_ hinv
                intro j y hj hjt hy
                have hj2 : j = 2 * idx + 2 := by omega
                subst hj2
                rw [hbr] at hy
                cases hy
                rw [hbl] at hcel
                cases hcel
                exact hc.1 _ _ hpick
              case _ hcomp =>
                cases heq
                rw [hbl] at hcel
                cases hcel
                refine heapValid_of_downInv hinv ?_ ?_
                · intro x y hx hy
                  rw [ha] at hx
                  rw [hbl] at hy
                  cases hx; cases hy
                  simpa using hcomp
                · intro x y hx hy
                  rw [ha] at hx
                  rw [hbr] at hy
                  cases hx; cases hy
                  exact hc.2 _ _ _ (by simpa using hcomp) (hc.1 _ _ hpick)
            case _ hfall =>
              exfalso
              have h1 : idx < l.length := by omega
              have h2 : 2 * idx + 1 < l.length := by omega
              exact hfall (l.get ⟨idx, h1⟩) (l.get ⟨2 * idx + 1, h2⟩)
                (getElem?_eq_some_get h1) (getElem?_eq_some_get h2)
          | false =>
            rw [hpick, if_neg (by simp)] at heq
            split at heq
            case _ a c2 ha hcel =>
              split at heq
              case _ hcomp =>
                refine ih _ _ _ (by rw [swapNode_length]; omega) ?_ heq
                refine downInv_swap hc (Or.inr rfl) ha hcel hcomp ?_ hinv
                intro j y hj hjt hy
                have hj2 : j = 2 * idx + 1 := by omega
                subst hj2
                rw [hbl] at hy
                cases hy
                rw [hbr] at hcel
                cases hcel
                exact hpick
              case _ hcomp =>
                cases heq
                rw [hbr] at hcel
                cases hcel
                refine heapValid_of_downInv hinv ?_ ?_
                · intro x y hx hy
                  rw [ha] at hx
                  rw [hbl] at hy
                  cases hx; cases hy
                  exact hc.2 _ _ _ (by simpa using hcomp) hpick
                · intro x y hx hy
                  rw [ha] at hx
                  rw [hbr] at hy
                  cases hx; cases hy
                  simpa using hcomp
            case _ hfall =>
              exfalso
              have h1 : idx < l.length := by omega
              have h2 : 2 * idx + 2 < l.length := by omega
              exact hfall (l.get ⟨idx, h1⟩) (l.get ⟨2 * idx + 2, h2⟩)
                (getElem?_eq_some_get h1) (getElem?_eq_some_get h2)
        case _ hfall =>
          exfalso
          have h1 : 2 * idx + 1 < l.length := by omega
          have h2 : 2 * idx + 2 < l.length := by omega
          exact hfall (l.get ⟨2 * idx + 1, h1⟩) (l.get ⟨2 * idx + 2, h2⟩)
            (getElem?_eq_some_get h1) (getElem?_eq_some_get h2)

theorem heapValid_of_short {l : List α} (h : l.length ≤ 1) : heapValid comp l := by
  rw [heapValid_iff]
  intro i a b hi _ hb
  have := (List.getElem?_eq_some.mp hb).1
  omega

theorem upInv_of_heapValid (hc : CompLawful comp) {l : List α} (hv : heapValid comp l)
    (idx : Nat) : upInv comp l idx := by
  rw [heapValid_iff] at hv
  constructor
  · intro i a b hi _ ha hb
    exact hv i a b hi ha hb
  · intro j g c hpos hj hg hcj
    have hjlen : j < l.length := (List.getElem?_eq_some.mp hcj).1
    have hilen : idx < l.length := by omega
    have hm : l[idx]? = some (l.get ⟨idx, hilen⟩) := getElem?_eq_some_get hilen
    have h1 : comp g (l.get ⟨idx, hilen⟩) = false := hv idx g _ (by omega) hg hm
    have h2 : comp (l.get ⟨idx, hilen⟩) c = false :=
      hv j _ c (by omega) (by rw [show (j - 1) / 2 = idx by omega]; exact hm) hcj
    exact hc.2 _ _ _ h1 h2

theorem downInv_of_heapValid (hc : CompLawful comp) {l : List α} (hv : heapValid comp l)
    (idx : Nat) : downInv comp l idx := by
  refine ⟨?_, (upInv_of_heapValid hc hv idx).2⟩
  rw [heapValid_iff] at hv
  intro i a b hi _ ha hb
  exact hv i a b hi ha hb

/-- Appending an element preserves the heap invariant (heap.py `append`). -/
theorem appendH_valid (hc : CompLawful comp) {l : List α} (hv : heapValid comp l) (x : α) :
    heapValid comp (appendH comp l x) := by
  unfold appendH reconstructBottomupFull
  split
  case _ h1 => exact heapValid_of_short (by omega)
  case _ h1 =>
    have hlen : (l ++ [x]).length - 1 = l.length := by simp
    rw [hlen]
    refine siftUp_valid hc ⟨?_, ?_⟩
    · intro i a b hi hne ha hb
      have hib : i < (l ++ [x]).length := (List.getElem?_eq_some.mp hb).1
      have hil : i < l.length := by
        simp only [List.length_append, List.length_singleton] at hib
        omega
      rw [List.getElem?_append, if_pos (by omega : (i - 1) / 2 < l.length)] at ha
      rw [List.getElem?_append, if_pos hil] at hb
      rw [heapValid_iff] at hv
      exact hv i a b hi ha hb
    · intro j g c hpos hj hg hcj
      have hjb : j < (l ++ [x]).length := (List.getElem?_eq_some.mp hcj).1
      simp only [List.length_append, List.length_singleton] at hjb
      omega

/-- Popping the root preserves the heap invariant (heap.py `pop`). -/
theorem popH_valid (hc : CompLawful comp) {l : List α} (hv : heapValid comp l)
    {o : Option α} {l2 : List α} (heq : popH comp l = .ok (o, l2)) :
    heapValid comp l2 := by
  unfold popH at heq
  split at heq
  · cases heq
    exact heapValid_of_short (by simp)
  · cases heq
    exact heapValid_of_short (by simp)
  case _ x y rest =>
    split at heq
    case _ l3 htop =>
      cases heq
      unfold reconstructTopdownFull at htop
      split at htop
      case _ hshort => cases htop; exact heapValid_of_short (by omega)
      case _ hshort =>
        refine siftDownAux_valid hc _ _ _ _ (by omega) ⟨?_, ?_⟩ htop
        · intro i a b hi hpar ha hb
          set m := ((x :: y :: rest).dropLast).set 0 (rest.getLastD y) with hm
          have hib : i < m.length := (List.getElem?_eq_some.mp hb).1
          have hmlen : m.length = (x :: y :: rest).length - 1 := by
            rw [hm, List.length_set, List.length_dropLast]
          have hacc : ∀ k, 0 < k → k < m.length → m[k]? = (x :: y :: rest)[k]? := by
            intro k hk hkm
            rw [hm, List.getElem?_set_ne (by omega), List.getElem?_dropLast,
              if_pos (by omega)]
          rw [hacc i hi hib] at hb
          rw [hacc ((i - 1) / 2) (by omega) (by omega)] at ha
          rw [heapValid_iff] at hv
          exact hv i a b hi ha hb
        · intro j g c hpos hj hg hcj
          omega
    case _ => cases heq

theorem findIdxScan_bounds {eqp : α → β → Bool} {t : β} :
    ∀ (l : List α) (j i : Nat), findIdxScan eqp t l j = some i → j ≤ i ∧ i < j + l.length := by
  intro l
  induction l with
  | nil => intro j i h; cases h
  | cons x xs ih =>
    intro j i h
    simp only [findIdxScan] at h
    split at h
    · cases h
      simp
    · have := ih (j + 1) i h
      refine ⟨by omega, ?_⟩
      simp only [List.length_cons]
      omega

/-- An explicit `reconstruct` on a valid heap preserves the heap invariant:
sifting from any in-range position of an already-valid array stops
immediately in either direction. -/
theorem reconstructH_valid (hc : CompLawful comp) {eqp : α → β → Bool} {l : List α}
    (hv : heapValid comp l) {t : β} {dir : Bool} {l2 : List α}
    (heq : reconstructH comp eqp l t dir = .ok l2) : heapValid comp l2 := by
  unfold reconstructH at heq
  split at heq
  · cases heq; exact hv
  case _ i hfind =>
    split at heq
    · cases heq
      exact siftUp_valid hc (upInv_of_heapValid hc hv i)
    · exact siftDownAux_valid hc _ _ _ _ (by omega) (downInv_of_heapValid hc hv i) heq

theorem applyOp_valid (hc : CompLawful comp) {eqp : α → β → Bool} {l : List α}
    (hv : heapValid comp l) (op : HeapOp α β) : heapValid comp (applyOp comp eqp l op) := by
  cases op with
  | app x => exact appendH_valid hc hv x
  | pop =>
    simp only [applyOp]
    split
    case _ o l2 heq => exact popH_valid hc hv heq
    case _ => exact hv
  | reconstruct t dir =>
    simp only [applyOp]
    split
    case _ l2 heq => exact reconstructH_valid hc hv heq
    case _ => exact hv

/-- C2: starting from the empty heap, after any finite sequence of `append`,
`pop` and `reconstruct` calls, every non-root element of the backing array is
in order with its parent at index `(i-1)/2`: the comparator applied to
(parent, element) returns `false`.  Holds for every comparator whose
"in-order" relation is a total preorder (`CompLawful`), in particular for the
default min-heap comparator and any identity predicate. -/
theorem heap_invariant_after_ops (comp : α → α → Bool) (eqp : α → β → Bool)
    (hc : CompLawful comp) (ops : List (HeapOp α β)) :
    heapValid comp (applyOps comp eqp ops) := by
  suffices h : ∀ l, heapValid comp l → heapValid comp (ops.foldl (applyOp comp eqp) l) from
    h [] (heapValid_of_short (by simp))
  induction ops with
  | nil => intro l hl; exact hl
  | cons op ops ih =>
    intro l hl
    exact ih _ (applyOp_valid hc hl op)

theorem heap_invariant_after_ops_witness :
    CompLawful (compDefault (id : Int → Int)) ∧
    heapValid (compDefault (id : Int → Int))
      (applyOps (compDefault id) (fun a b => a == b)
        [.app 8, .app 5, .app 15, .pop, .reconstruct 5 true, .app 3, .app 7,
          .reconstruct 15 false, .pop]) :=
  ⟨compDefault_lawful id, heap_invariant_after_ops _ _ (compDefault_lawful id) _⟩

end HeapInvariant

/-! ### Decrease-key: `reconstruct` upward agrees with rebuilding from scratch -/

section DecreaseKey

variable {α β : Type} {comp : α → α → Bool}

theorem siftUpAux_getElem?_high :
    ∀ (fuel : Nat) (l : List α) (idx j : Nat), idx < j →
      (siftUpAux comp fuel l idx)[j]? = l[j]? := by
  intro fuel
  induction fuel with
  | zero => intro l idx j _; rfl
  | succ fuel ih =>
    intro l idx j hj
    simp only [siftUpAux]
    split
    · rfl
    case _ h0 =>
      split
      case _ a b hpa hib =>
        split
        case _ hcomp =>
          rw [ih _ _ _ (by omega)]
          have hplen : (idx - 1) / 2 < l.length := (List.getElem?_eq_some.mp hpa).1
          have hilen : idx < l.length := (List.getElem?_eq_some.mp hib).1
          rw [getElem?_swapNode l hplen hilen j, if_neg (by omega), if_neg (by omega)]
        case _ => rfl
      case _ => rfl

theorem swapNode_append {l : List α} (ext : List α) {i j : Nat} (hi : i < l.length)
    (hj : j < l.length) : swapNode (l ++ ext) i j = swapNode l i j ++ ext := by
  refine List.ext_getElem? fun m => ?_
  have hi2 : i < (l ++ ext).length := by simp only [List.length_append]; omega
  have hj2 : j < (l ++ ext).length := by simp only [List.length_append]; omega
  rw [getElem?_swapNode _ hi2 hj2 m]
  by_cases hm : m < l.length
  · rw [List.getElem?_append_left (show m < (swapNode l i j).length by rw [swapNode_length]; omega),
      getElem?_swapNode l hi hj m, List.getElem?_append_left hj, List.getElem?_append_left hi,
      List.getElem?_append_left hm]
  · rw [if_neg (by omega), if_neg (by omega),
      List.getElem?_append_right (show l.length ≤ m by omega),
      List.getElem?_append_right (show (swapNode l i j).length ≤ m by rw [swapNode_length]; omega),
      swapNode_length]

theorem siftUpAux_append :
    ∀ (fuel : Nat) (l ext : List α) (idx : Nat), idx < l.length →
      siftUpAux comp fuel (l ++ ext) idx = siftUpAux comp fuel l idx ++ ext := by
  intro fuel
  induction fuel with
  | zero => intro l ext idx _; rfl
  | succ fuel ih =>
    intro l ext idx hidx
    simp only [siftUpAux]
    split
    · rfl
    case _ h0 =>
      have hp : (idx - 1) / 2 < l.length := by omega
      rw [List.getElem?_append_left hp, List.getElem?_append_left hidx]
      split
      case _ a b hpa hib =>
        split
        case _ hcomp =>
          rw [swapNode_append ext hp hidx, ih _ _ _ (by rw [swapNode_length]; omega)]
        case _ => rfl
      case _ => rfl

theorem siftUpAux_pointwise (hc : CompLawful comp) {L : List α} (hvL : heapValid comp L) :
    ∀ (fuel : Nat) (m : List α) (idx : Nat), m.length = L.length → PtLe comp m L →
      PtLe comp (siftUpAux comp fuel m idx) L := by
  intro fuel
  induction fuel with
  | zero => intro m idx _ hpt; exact hpt
  | succ fuel ih =>
    intro m idx hlen hpt
    simp only [siftUpAux]
    split
    · exact hpt
    case _ h0 =>
      split
      case _ P K hpP hiK =>
        split
        case _ hcomp =>
          refine ih _ _ (by rw [swapNode_length]; exact hlen) ?_
          have hplen : (idx - 1) / 2 < m.length := (List.getElem?_eq_some.mp hpP).1
          have hilen : idx < m.length := (List.getElem?_eq_some.mp hiK).1
          unfold PtLe
          intro j a b hj hLj
          rw [getElem?_swapNode m hplen hilen j] at hj
          split at hj
          case _ hjp =>
            subst hjp
            rw [hiK] at hj
            cases hj
            have h1 : comp K P = false := hc.1 _ _ hcomp
            have h2 : comp P b = false := hpt _ P b hpP hLj
            exact hc.2 _ _ _ h1 h2
          case _ hjp =>
            split at hj
            case _ hji =>
              subst hji
              rw [hpP] at hj
              cases hj
              have hLp : (j - 1) / 2 < L.length := by omega
              have hLpel : L[(j - 1) / 2]? = some (L.get ⟨(j - 1) / 2, hLp⟩) :=
                getElem?_eq_some_get hLp
              have h1 : comp P (L.get ⟨(j - 1) / 2, hLp⟩) = false := hpt _ P _ hpP hLpel
              have h2 : comp (L.get ⟨(j - 1) / 2, hLp⟩) b = false := by
                rw [heapValid_iff] at hvL
                exact hvL j _ b (by omega) hLpel hLj
              exact hc.2 _ _ _ h1 h2
            case _ hji => exact hpt j a b hj hLj
        case _ => exact hpt
      case _ => exact hpt

theorem heapValid_front {l ext : List α} (hv : heapValid comp (l ++ ext)) :
    heapValid comp l := by
  rw [heapValid_iff] at hv ⊢
  intro i a b hi ha hb
  have hib : i < l.length := (List.getElem?_eq_some.mp hb).1
  refine hv i a b hi ?_ ?_
  · rw [List.getElem?_append, if_pos (by omega)]
    exact ha
  · rw [List.getElem?_append, if_pos hib]
    exact hb

theorem heapValid_take {l : List α} (hv : heapValid comp l) (k : Nat) :
    heapValid comp (l.take k) := by
  rw [← List.take_append_drop k l] at hv
  exact heapValid_front hv

theorem take_set (l : List α) (k : Nat) (v : α) : (l.set k v).take k = l.take k := by
  refine List.ext_getElem? fun m => ?_
  rw [List.getElem?_take, List.getElem?_take]
  split
  case _ hm => rw [List.getElem?_set_ne (by omega)]
  case _ => rfl

theorem appendH_no_swap {l : List α} {a x : α} (hne : l ≠ [])
    (ha : l[(l.length - 1) / 2]? = some a) (hax : comp a x = false) :
    appendH comp l x = l ++ [x] := by
  unfold appendH reconstructBottomupFull
  have hlen : (l ++ [x]).length = l.length + 1 := by simp
  rw [if_neg (by rw [hlen]; cases l with | nil => exact absurd rfl hne | cons c cs => simp)]
  rw [hlen]
  unfold siftUp
  obtain ⟨m, hm⟩ : ∃ m, l.length = m + 1 := by
    cases l with
    | nil => exact absurd rfl hne
    | cons c cs => exact ⟨cs.length, by simp⟩
  rw [show l.length + 1 - 1 = m + 1 by omega]
  simp only [siftUpAux]
  rw [if_neg (by omega)]
  split
  case _ a2 x2 ha2 hx2 =>
    rw [List.getElem?_append_left (show (m + 1 - 1) / 2 < l.length by omega)] at ha2
    obtain rfl : a2 = a := by
      rw [show (m + 1 - 1) / 2 = (l.length - 1) / 2 by omega, ha] at ha2
      simpa using ha2.symm
    obtain rfl : x2 = x := by
      rw [show m + 1 = l.length by omega, List.getElem?_concat_length] at hx2
      simpa using hx2.symm
    rw [if_neg (by rw [hax]; simp)]
  case _ => rfl

theorem buildH_append_singleton (comp : α → α → Bool) (M : List α) (x : α) :
    buildH comp (M ++ [x]) = appendH comp (buildH comp M) x := by
  unfold buildH
  rw [List.foldl_append]
  rfl

theorem buildH_of_valid :
    ∀ {l : List α}, heapValid comp l → buildH comp l = l := by
  intro l
  induction l using List.reverseRecOn with
  | nil => intro _; rfl
  | append_singleton M x ih =>
    intro hv
    rw [buildH_append_singleton, ih (heapValid_front hv)]
    cases hM : M with
    | nil => rfl
    | cons c cs =>
      rw [← hM]
      have hMne : M ≠ [] := by rw [hM]; simp
      have hplen : (M.length - 1) / 2 < M.length := by
        rw [hM]; simp; omega
      refine appendH_no_swap hMne (List.getElem?_eq_getElem hplen) ?_
      rw [heapValid_iff] at hv
      have hval : (M ++ [x])[(M.length - 1) / 2]? = some (M.get ⟨(M.length - 1) / 2, hplen⟩) := by
        rw [List.getElem?_append_left hplen]
        exact getElem?_eq_some_get hplen
      exact hv M.length _ x (by rw [hM]; simp) hval (List.getElem?_concat_length M x)

theorem appendH_eq_siftUp (comp : α → α → Bool) (M : List α) (x : α) :
    appendH comp M x = siftUp comp (M ++ [x]) M.length := by
  unfold appendH reconstructBottomupFull
  cases M with
  | nil => rfl
  | cons c cs =>
    rw [if_neg (by simp)]
    congr 1
    simp

/-- Decreasing the key at position `k` of a valid heap and sifting upward
yields exactly the array that `append`-building the updated payload list
from scratch would produce. -/
theorem buildH_decrease (hc : CompLawful comp) {L : List α} (hv : heapValid comp L)
    {k : Nat} {old v : α} (hk : L[k]? = some old) (hle : comp v old = false) :
    buildH comp (L.set k v) = siftUp comp (L.set k v) k := by
  have hkn : k < L.length := (List.getElem?_eq_some.mp hk).1
  have hL2len : (L.set k v).length = L.length := by simp
  have hkv : (L.set k v)[k]? = some v := List.getElem?_set_self (by omega)
  have hptLL : PtLe comp (L.set k v) L := by
    unfold PtLe
    intro j a b hj hLj
    rcases eq_or_ne j k with rfl | hjk
    · rw [hkv] at hj
      rw [hk] at hLj
      obtain rfl : a = v := by simpa using hj.symm
      obtain rfl : b = old := by simpa using hLj.symm
      exact hle
    · rw [List.getElem?_set_ne (Ne.symm hjk)] at hj
      rw [hj] at hLj
      obtain rfl : a = b := by simpa using hLj
      exact hc.not_self a
  have hSlen : (siftUp comp (L.set k v) k).length = L.length := by
    unfold siftUp
    rw [siftUpAux_length]
    exact hL2len
  have hShigh : ∀ j, k < j → (siftUp comp (L.set k v) k)[j]? = (L.set k v)[j]? :=
    fun j hj => siftUpAux_getElem?_high k (L.set k v) k j hj
  have hpt : PtLe comp (siftUp comp (L.set k v) k) L :=
    siftUpAux_pointwise hc hv k (L.set k v) k hL2len hptLL
  have hvIff := (heapValid_iff comp L).mp hv
  have htake1 : (L.set k v).take (k + 1) = L.take k ++ [v] := by
    rw [List.take_succ, hkv, take_set]
    rfl
  have main : ∀ j, k + 1 ≤ j → j ≤ L.length →
      buildH comp ((L.set k v).take j) = (siftUp comp (L.set k v) k).take j := by
    intro j hj1
    induction j, hj1 using Nat.le_induction with
    | base =>
      intro hjlen
      rw [htake1, buildH_append_singleton, buildH_of_valid (heapValid_take hv k),
        appendH_eq_siftUp, show (L.take k).length = k by rw [List.length_take]; omega]
      have hsplit : siftUp comp (L.set k v) k =
          siftUp comp ((L.set k v).take (k + 1)) k ++ (L.set k v).drop (k + 1) := by
        conv_lhs => rw [← List.take_append_drop (k + 1) (L.set k v)]
        unfold siftUp
        rw [siftUpAux_append k _ _ k (by rw [List.length_take]; omega)]
      rw [hsplit, htake1]
      have hlen2 : (siftUp comp (L.take k ++ [v]) k).length = k + 1 := by
        unfold siftUp
        rw [siftUpAux_length]
        simp
        omega
      rw [show k + 1 = (siftUp comp (L.take k ++ [v]) k).length from hlen2.symm,
        List.take_left]
    | succ j hj ih =>
      intro hjlen
      have hjlt : j < L.length := by omega
      have hjk : j ≠ k := by omega
      have hc1 : L[j]? = some (L.get ⟨j, hjlt⟩) := getElem?_eq_some_get hjlt
      have hjv : (L.set k v)[j]? = some (L.get ⟨j, hjlt⟩) := by
        rw [List.getElem?_set_ne (by omega)]
        exact hc1
      rw [List.take_succ, hjv]
      show buildH comp ((L.set k v).take j ++ [L.get ⟨j, hjlt⟩]) = _
      rw [buildH_append_singleton, ih (by omega)]
      have htklen : ((siftUp comp (L.set k v) k).take j).length = j := by
        rw [List.length_take]
        omega
      have hpj : (j - 1) / 2 < j := by omega
      have hpjS : (j - 1) / 2 < (siftUp comp (L.set k v) k).length := by omega
      have ha : ((siftUp comp (L.set k v) k).take j)[(j - 1) / 2]? =
          some ((siftUp comp (L.set k v) k).get ⟨(j - 1) / 2, hpjS⟩) := by
        rw [List.getElem?_take, if_pos hpj]
        exact getElem?_eq_some_get hpjS
      have hLpj : (j - 1) / 2 < L.length := by omega
      have hcomp1 : comp ((siftUp comp (L.set k v) k).get ⟨(j - 1) / 2, hpjS⟩)
          (L.get ⟨(j - 1) / 2, hLpj⟩) = false :=
        hpt _ _ _ (getElem?_eq_some_get hpjS) (getElem?_eq_some_get hLpj)
      have hcomp2 : comp (L.get ⟨(j - 1) / 2, hLpj⟩) (L.get ⟨j, hjlt⟩) = false :=
        hvIff j _ _ (by omega) (getElem?_eq_some_get hLpj) hc1
      have hnoswap : appendH comp ((siftUp comp (L.set k v) k).take j) (L.get ⟨j, hjlt⟩) =
          (siftUp comp (L.set k v) k).take j ++ [L.get ⟨j, hjlt⟩] := by
        refine appendH_no_swap ?_ ?_ (hc.2 _ _ _ hcomp1 hcomp2)
        · intro hnil
          rw [hnil] at htklen
          simp at htklen
          omega
        · rw [htklen, ha]
      rw [hnoswap]
      have hSj : (siftUp comp (L.set k v) k)[j]? = some (L.get ⟨j, hjlt⟩) := by
        rw [hShigh j (by omega)]
        exact hjv
      rw [List.take_succ, hSj]
      rfl
  have hfin := main L.length (by omega) le_rfl
  rw [show (L.set k v).take L.length = L.set k v by
      rw [show L.length = (L.set k v).length from hL2len.symm, List.take_length],
    show (siftUp comp (L.set k v) k).take L.length = siftUp comp (L.set k v) k by
      rw [show L.length = (siftUp comp (L.set k v) k).length from hSlen.symm,
        List.take_length]] at hfin
  exact hfin

/-- C4: in a heap valid under the default min-heap comparator, strictly
decreasing the extraction value of the element at position `k` in place and
calling `reconstruct` with the upward (bottom-up) direction (the scan finds
the updated payload at its position `k`) sifts it upward; afterwards the
heap invariant holds again, and popping until empty yields the same payload
sequence as a heap freshly built by `append`ing the same payloads (with the
new value) in backing-array order — indeed the two backing arrays are equal,
so the pop sequences coincide. -/
theorem decrease_key_reconstruct {α : Type} (val : α → Int) (eqp : α → α → Bool)
    (L : List α) (k : Nat) (old v : α) (hv : heapValid (compDefault val) L)
    (hk : L[k]? = some old) (hdec : val v < val old)
    (hfind : findIdxScan eqp v (L.set k v) 0 = some k) :
    reconstructH (compDefault val) eqp (L.set k v) v true =
      .ok (siftUp (compDefault val) (L.set k v) k) ∧
    heapValid (compDefault val) (siftUp (compDefault val) (L.set k v) k) ∧
    popAll (compDefault val) (siftUp (compDefault val) (L.set k v) k) =
      popAll (compDefault val) (buildH (compDefault val) (L.set k v)) := by
  have hc := compDefault_lawful val
  have hle : compDefault val v old = false := by
    simp only [compDefault, decide_eq_false_iff_not]
    omega
  have hkn : k < L.length := (List.getElem?_eq_some.mp hk).1
  have hkv : (L.set k v)[k]? = some v := List.getElem?_set_self (by omega)
  have hvIff := (heapValid_iff (compDefault val) L).mp hv
  refine ⟨?_, ?_, ?_⟩
  · unfold reconstructH
    rw [hfind]
    rfl
  · refine siftUp_valid hc ⟨?_, ?_⟩
    · intro i a b hi hik ha hb
      rcases eq_or_ne ((i - 1) / 2) k with hq | hq
      · rw [hq, hkv] at ha
        obtain rfl : v = a := by simpa using ha
        rw [List.getElem?_set_ne (Ne.symm hik)] at hb
        have h2 : compDefault val old b = false := hvIff i old b hi (by rw [← hq] at hk; exact hk) hb
        exact hc.2 _ _ _ hle h2
      · rw [List.getElem?_set_ne (Ne.symm hq)] at ha
        rw [List.getElem?_set_ne (Ne.symm hik)] at hb
        exact hvIff i a b hi ha hb
    · intro j g c hkpos hj hg hcj
      rw [List.getElem?_set_ne (by omega)] at hg
      rw [List.getElem?_set_ne (by omega)] at hcj
      have h1 : compDefault val g old = false := hvIff k g old (by omega) hg hk
      have h2 : compDefault val old c = false :=
        hvIff j old c (by omega) (by rw [show (j - 1) / 2 = k by omega]; exact hk) hcj
      exact hc.2 _ _ _ h1 h2
  · rw [buildH_decrease hc hv hk hle]

theorem decrease_key_reconstruct_witness :
    (heapValid (compDefault Prod.snd) ([("a", 1), ("b", 5), ("c", 6)] : List (String × Int)) ∧
      ([("a", 1), ("b", 5), ("c", 6)] : List (String × Int))[1]? = some ("b", 5) ∧
      (2 : Int) < 5 ∧
      findIdxScan (fun x t => x.1 == t.1) (("b", 2) : String × Int)
        (([("a", 1), ("b", 5), ("c", 6)] : List (String × Int)).set 1 ("b", 2)) 0 = some 1) ∧
    (reconstructH (compDefault Prod.snd) (fun x t => x.1 == t.1)
        (([("a", 1), ("b", 5), ("c", 6)] : List (String × Int)).set 1 ("b", 2))
        (("b", 2) : String × Int) true =
      .ok (siftUp (compDefault Prod.snd)
        (([("a", 1), ("b", 5), ("c", 6)] : List (String × Int)).set 1 ("b", 2)) 1) ∧
    heapValid (compDefault Prod.snd) (siftUp (compDefault Prod.snd)
        (([("a", 1), ("b", 5), ("c", 6)] : List (String × Int)).set 1 ("b", 2)) 1) ∧
    popAll (compDefault Prod.snd) (siftUp (compDefault Prod.snd)
        (([("a", 1), ("b", 5), ("c", 6)] : List (String × Int)).set 1 ("b", 2)) 1) =
      popAll (compDefault Prod.snd) (buildH (compDefault Prod.snd)
        (([("a", 1), ("b", 5), ("c", 6)] : List (String × Int)).set 1 ("b", 2)))) :=
  ⟨⟨by decide, by decide, by decide, by decide⟩,
    decrease_key_reconstruct Prod.snd (fun x t => x.1 == t.1) [("a", 1), ("b", 5), ("c", 6)]
      1 ("b", 5) ("b", 2) (by decide) (by decide) (by decide) (by decide)⟩

end DecreaseKey

/-! ### Concrete Dijkstra claims -/

section ConcreteDijkstra

/-- C1: on the four-node graph with symmetric edges `A–B=1`, `B–C=2`,
`A–C=4`, `C–D=1`, `calc("A","D")` returns exactly the records
`[A(0), B(1), C(3), D(4)]`, ordered source to target, each carrying the
cumulative distance from the source (and the parent links `A←B←C←D`): the
4-hop route through `B` beats the direct `A–C–D` route. -/
theorem calc_four_node_graph :
    ShortestPath.calc graphC1 "A" "D" =
      .ok [⟨"A", 0, none⟩, ⟨"B", 1, some "A"⟩, ⟨"C", 3, some "B"⟩, ⟨"D", 4, some "C"⟩] ∧
    (ShortestPath.calc graphC1 "A" "D").map (List.map fun d => (d.id, d.distance)) =
      .ok [("A", 0), ("B", 1), ("C", 3), ("D", 4)] :=
  ⟨rfl, rfl⟩

/-- C6 counterexample: the two user-facing failures are both raised as the
same generic `RuntimeError` exception class — they are distinguishable only
by their message arguments, not as distinct error kinds, contradicting the
claim's "not as a single generic failure type". -/
theorem calc_errors_same_class :
    ShortestPath.calc graphNoSource "A" "D" =
      .error (.runtimeError ["Node of stId is missing.", "A"]) ∧
    ShortestPath.calc graphIsolated "A" "Z" =
      .error (.runtimeError ["Cannot reach destination"]) ∧
    PyErr.cls (.runtimeError ["Node of stId is missing.", "A"]) =
      PyErr.cls (.runtimeError ["Cannot reach destination"]) ∧
    PyErr.cls (.runtimeError ["Cannot reach destination"]) = "RuntimeError" :=
  ⟨rfl, rfl, rfl, rfl⟩

/-- C8 counterexample: on a node that is already adjacent to `x` (with
distance 7), calling `addAdjacent(x, 1)` then `addAdjacent(x, 2)` leaves
exactly one `x`-edge but `getDistance(x)` returns the pre-existing 7, not
the 1 supplied by the first of the two calls — so the claim fails for such
nodes. -/
theorem addAdjacent_existing_counterexample :
    ((((⟨"n", 0, 0, [], [⟨"x", 7⟩]⟩ : Node).addAdjacent "x" (some 1)).addAdjacent "x"
        (some 2)).adj.countP fun e => "x" == e.dstId) = 1 ∧
    (((⟨"n", 0, 0, [], [⟨"x", 7⟩]⟩ : Node).addAdjacent "x" (some 1)).addAdjacent "x"
        (some 2)).getDistance "x" = some 7 ∧
    (7 : Int) ≠ 1 := by
  refine ⟨by decide, by decide, by decide⟩

/-- C8 amended: for every node NOT already adjacent to `x`, calling
`addAdjacent(x, d1)` then `addAdjacent(x, d2)` (both distances present)
leaves exactly one edge with destination `x`, and `getDistance(x)` returns
`d1`, the distance of the first call. -/
theorem addAdjacent_idempotent (n : Node) (x : String) (d1 d2 : Int)
    (h : n.isExist x = false) :
    (((n.addAdjacent x (some d1)).addAdjacent x (some d2)).adj.countP
      fun e => x == e.dstId) = 1 ∧
    ((n.addAdjacent x (some d1)).addAdjacent x (some d2)).getDistance x = some d1 := by
  have hfind : n.adj.find? (fun e => x == e.dstId) = none := by
    unfold Node.isExist Node.getDistance at h
    cases hf : n.adj.find? (fun e => x == e.dstId) with
    | none => rfl
    | some e => rw [hf] at h; simp at h
  have hstep1 : n.addAdjacent x (some d1) = { n with adj := n.adj ++ [⟨x, d1⟩] } := by
    unfold Node.addAdjacent
    rw [h]
    rfl
  have hget1 : ({ n with adj := n.adj ++ [⟨x, d1⟩] } : Node).getDistance x = some d1 := by
    unfold Node.getDistance
    rw [List.find?_append, hfind]
    simp [List.find?]
  have hstep2 : ({ n with adj := n.adj ++ [⟨x, d1⟩] } : Node).addAdjacent x (some d2) =
      { n with adj := n.adj ++ [⟨x, d1⟩] } := by
    unfold Node.addAdjacent Node.isExist
    rw [hget1]
    rfl
  rw [hstep1, hstep2]
  refine ⟨?_, hget1⟩
  rw [List.countP_append]
  have hzero : n.adj.countP (fun e => x == e.dstId) = 0 := by
    rw [List.countP_eq_zero]
    rw [List.find?_eq_none] at hfind
    exact hfind
  rw [hzero]
  simp

theorem addAdjacent_idempotent_witness :
    (⟨"n", 0, 0, [], [⟨"y", 9⟩]⟩ : Node).isExist "x" = false ∧
    ((((⟨"n", 0, 0, [], [⟨"y", 9⟩]⟩ : Node).addAdjacent "x" (some 4)).addAdjacent "x"
         (some 6)).adj.countP fun e => "x" == e.dstId) = 1 ∧
    (((⟨"n", 0, 0, [], [⟨"y", 9⟩]⟩ : Node).addAdjacent "x" (some 4)).addAdjacent "x"
        (some 6)).getDistance "x" = some 4 :=
  ⟨by decide,
    (addAdjacent_idempotent ⟨"n", 0, 0, [], [⟨"y", 9⟩]⟩ "x" 4 6 (by decide)).1,
    (addAdjacent_idempotent ⟨"n", 0, 0, [], [⟨"y", 9⟩]⟩ "x" 4 6 (by decide)).2⟩

/-- C10: for every graph containing a node with the id `s`, `calc(s, s)`
returns the one-element list holding `s`'s record with distance 0 and no
parent: the very first pop returns the source, its id equals the target id,
the loop exits immediately, and path reconstruction stops at the parentless
source. -/
theorem calc_source_equals_target (gr : Graph) (s : String) (nd : Node)
    (h : gr.get s = some nd) :
    ShortestPath.calc gr s s = .ok [⟨s, 0, none⟩] := by
  have hids : nd.id = s := by
    unfold Graph.get at h
    have := List.find?_some h
    simpa using this
  subst hids
  unfold ShortestPath.calc calcT
  rw [h]
  have hpop : popH (heapComp fun k =>
      if k = nd.id then some ⟨nd.id, 0, none⟩ else initDs gr k) [nd.id] =
      .ok (some nd.id, []) := rfl
  simp only [appendH_nil, dijkstraLoop, hpop]
  rw [if_pos trivial]
  simp only [pathBuild]
  rw [if_pos trivial]
  rfl

theorem calc_source_equals_target_witness :
    graphC1.get "B" = some ⟨"B", 0, 0, [], [⟨"A", 1⟩, ⟨"C", 2⟩]⟩ ∧
    ShortestPath.calc graphC1 "B" "B" = .ok [⟨"B", 0, none⟩] :=
  ⟨by decide,
    calc_source_equals_target graphC1 "B" ⟨"B", 0, 0, [], [⟨"A", 1⟩, ⟨"C", 2⟩]⟩ (by decide)⟩

end ConcreteDijkstra

/-! ### Membership facts about the heap primitives -/

section MemLemmas

variable {α β : Type} {comp : α → α → Bool} {eqp : α → β → Bool}

theorem mem_siftUpAux :
    ∀ (fuel : Nat) (l : List α) (idx : Nat) (x : α),
      x ∈ siftUpAux comp fuel l idx ↔ x ∈ l := by
  intro fuel
  induction fuel with
  | zero => intro l idx x; exact Iff.rfl
  | succ fuel ih =>
    intro l idx x
    simp only [siftUpAux]
    split
    · exact Iff.rfl
    case _ h0 =>
      split
      case _ a b hpa hib =>
        split
        case _ hcomp =>
          rw [ih]
          exact mem_swapNode (List.getElem?_eq_some.mp hpa).1 (List.getElem?_eq_some.mp hib).1 x
        case _ => exact Iff.rfl
      case _ => exact Iff.rfl

theorem mem_siftDownAux :
    ∀ (fuel : Nat) (l : List α) (idx : Nat) (l2 : List α),
      siftDownAux comp fuel l idx = .ok l2 → ∀ x, x ∈ l2 ↔ x ∈ l := by
  intro fuel
  induction fuel with
  | zero => intro l idx l2 h x; cases h; exact Iff.rfl
  | succ fuel ih =>
    intro l idx l2 h x
    simp only [siftDownAux] at h
    split at h
    · split at h
      · cases h; exact Iff.rfl
      · cases h
    · split at h
      · split at h
        case _ a b ha hb =>
          split at h
          case _ =>
            rw [ih _ _ _ h]
            exact mem_swapNode (List.getElem?_eq_some.mp ha).1 (List.getElem?_eq_some.mp hb).1 x
          case _ => cases h; exact Iff.rfl
        case _ => cases h; exact Iff.rfl
      · split at h
        case _ bl br hbl hbr =>
          split at h
          case _ a c ha hcel =>
            split at h
            case _ =>
              rw [ih _ _ _ h]
              exact mem_swapNode (List.getElem?_eq_some.mp ha).1
                (List.getElem?_eq_some.mp hcel).1 x
            case _ => cases h; exact Iff.rfl
          case _ => cases h; exact Iff.rfl
        case _ => cases h; exact Iff.rfl

theorem mem_appendH (l : List α) (y x : α) :
    x ∈ appendH comp l y ↔ x ∈ l ∨ x = y := by
  unfold appendH reconstructBottomupFull
  split
  · simp
  · unfold siftUp
    rw [mem_siftUpAux]
    simp

theorem getLastD_mem_cons : ∀ (l : List α) (d : α), l.getLastD d ∈ d :: l := by
  intro l
  induction l with
  | nil => intro d; simp
  | cons z zs ih =>
    intro d
    rw [List.getLastD_cons]
    have h2 := ih z
    simp only [List.mem_cons] at h2 ⊢
    tauto

theorem popH_sub {l l2 : List α} {o : Option α} (h : popH comp l = .ok (o, l2)) :
    ∀ x ∈ l2, x ∈ l := by
  unfold popH at h
  split at h
  · cases h; intro x hx; cases hx
  · cases h; intro x hx; cases hx
  case _ c y rest =>
    split at h
    case _ l3 htop =>
      cases h
      intro x hx
      unfold reconstructTopdownFull at htop
      have hmem : x ∈ ((c :: y :: rest).dropLast).set 0 (rest.getLastD y) := by
        split at htop
        · cases htop; exact hx
        · unfold siftDown at htop
          exact (mem_siftDownAux _ _ _ _ htop x).mp hx
      rcases List.mem_or_eq_of_mem_set hmem with h2 | h2
      · exact (List.dropLast_sublist (c :: y :: rest)).mem h2
      · subst h2
        have := getLastD_mem_cons rest y
        simp only [List.mem_cons] at this ⊢
        tauto
    case _ => cases h

theorem popH_head_mem {l l2 : List α} {d : α} (h : popH comp l = .ok (some d, l2)) :
    d ∈ l := by
  unfold popH at h
  split at h
  · cases h
  · cases h; simp
  · split at h
    · cases h; simp
    · cases h

theorem reconstructH_bottomup_ok (comp : α → α → Bool) (eqp : α → β → Bool) (l : List α)
    (t : β) : ∃ l2, reconstructH comp eqp l t true = .ok l2 := by
  unfold reconstructH
  split
  · exact ⟨l, rfl⟩
  · exact ⟨_, rfl⟩

theorem mem_reconstructH {l l2 : List α} {t : β} {dir : Bool}
    (h : reconstructH comp eqp l t dir = .ok l2) : ∀ x, x ∈ l2 ↔ x ∈ l := by
  unfold reconstructH at h
  split at h
  · cases h; intro x; exact Iff.rfl
  · split at h
    · cases h
      intro x
      exact mem_siftUpAux _ _ _ x
    · intro x
      exact mem_siftDownAux _ _ _ _ h x

end MemLemmas

/-! ### C5: every node is appended to the heap at most once -/

section AppendOnce

theorem relaxEdges_c5 (ndId : String) :
    ∀ (edges : List Edge) (ds : DsMap) (h apps : List String)
      (e? : Option PyErr) (ds2 : DsMap) (h2 apps2 : List String),
      (∀ e ∈ edges, 0 ≤ e.distance) → ndId ∈ apps → C5Inv ds h apps →
      relaxEdges ndId edges ds h apps = (e?, ds2, h2, apps2) →
      C5Inv ds2 h2 apps2 ∧ ndId ∈ apps2 := by
  intro edges
  induction edges with
  | nil =>
    intro ds h apps e? ds2 h2 apps2 _ hnd hinv heq
    cases heq
    exact ⟨hinv, hnd⟩
  | cons e rest ih =>
    intro ds h apps e? ds2 h2 apps2 hw hnd hinv heq
    simp only [relaxEdges] at heq
    split at heq
    · cases heq; exact ⟨hinv, hnd⟩
    case _ distCur hcur =>
      split at heq
      · cases heq; exact ⟨hinv, hnd⟩
      case _ distAdj hadj =>
        obtain ⟨hnd0, hh, hpos, hneg4⟩ := hinv
        have hcur0 : 0 ≤ distCur.distance := by
          obtain ⟨d, hd1, hd2⟩ := hpos ndId hnd
          rw [hcur] at hd1
          obtain rfl : distCur = d := by simpa using hd1
          exact hd2
        have wN : 0 ≤ e.distance := hw e (by simp)
        split at heq
        case _ hneg =>
          have hdst_not : e.dstId ∉ apps := hneg4 e.dstId distAdj hadj hneg
          refine ih _ _ _ _ _ _ _ (fun e2 he2 => hw e2 (by simp [he2])) (by simp [hnd])
            ⟨?_, ?_, ?_, ?_⟩ heq
          · rw [List.nodup_append]
            refine ⟨hnd0, by simp, ?_⟩
            intro x hx
            simp only [List.mem_singleton]
            intro hxe
            subst hxe
            exact hdst_not hx
          · intro i hi
            rcases (mem_appendH h e.dstId i).mp hi with h9 | h9
            · simp [hh i h9]
            · simp [h9]
          · intro i hi
            rcases List.mem_append.mp hi with h9 | h9
            · have hne : i ≠ e.dstId := fun hc => hdst_not (hc ▸ h9)
              obtain ⟨d, hd1, hd2⟩ := hpos i h9
              exact ⟨d, by rw [if_neg hne]; exact hd1, hd2⟩
            · simp only [List.mem_singleton] at h9
              subst h9
              refine ⟨_, by rw [if_pos rfl], ?_⟩
              show (0 : Int) ≤ distCur.distance + e.distance
              omega
          · intro i d hd hdneg
            by_cases hie : i = e.dstId
            · subst hie
              rw [if_pos rfl] at hd
              cases hd
              have h9 : distCur.distance + e.distance < 0 := hdneg
              omega
            · rw [if_neg hie] at hd
              have h9 := hneg4 i d hd hdneg
              simp [List.mem_append, h9, hie]
        case _ hneg =>
          split at heq
          case _ hlt =>
            have hInvUpd : ∀ (hX : List String), (∀ i ∈ hX, i ∈ apps) →
                C5Inv (fun k => if k = e.dstId then some { distAdj with distance := distCur.distance + e.distance, parent := some ndId } else ds k) hX apps := by
              intro hX hhX
              refine ⟨hnd0, hhX, ?_, ?_⟩
              · intro i hi
                by_cases hie : i = e.dstId
                · subst hie
                  refine ⟨{ distAdj with distance := distCur.distance + e.distance, parent := some ndId }, by simp, ?_⟩
                  show (0 : Int) ≤ distCur.distance + e.distance
                  omega
                · obtain ⟨d, hd1, hd2⟩ := hpos i hi
                  refine ⟨d, ?_, hd2⟩
                  show (if i = e.dstId then _ else ds i) = some d
                  rw [if_neg hie]
                  exact hd1
              · intro i d hd hdneg
                by_cases hie : i = e.dstId
                · subst hie
                  simp only [if_pos rfl] at hd
                  cases hd
                  have h9 : distCur.distance + e.distance < 0 := hdneg
                  omega
                · simp only [if_neg hie] at hd
                  exact hneg4 i d hd hdneg
            split at heq
            case _ h3 hrec =>
              refine ih _ _ _ _ _ _ _ (fun e2 he2 => hw e2 (by simp [he2])) hnd ?_ heq
              refine hInvUpd h3 ?_
              intro i hi
              exact hh i ((mem_reconstructH hrec i).mp hi)
            case _ =>
              cases heq
              exact ⟨hInvUpd h hh, hnd⟩
          case _ =>
            exact ih _ _ _ _ _ _ _ (fun e2 he2 => hw e2 (by simp [he2])) hnd
              ⟨hnd0, hh, hpos, hneg4⟩ heq

theorem dijkstraLoop_c5 (gr : Graph) (edId : String)
    (hw : ∀ nd ∈ gr.nodes, ∀ e ∈ nd.adj, 0 ≤ e.distance) :
    ∀ (fuel : Nat) (s : RunSt) (r : Option PyErr) (s2 : RunSt),
      C5Inv s.ds s.h s.apps → dijkstraLoop gr edId fuel s = (r, s2) →
      C5Inv s2.ds s2.h s2.apps := by
  intro fuel
  induction fuel with
  | zero =>
    intro s r s2 hinv heq
    cases heq
    exact hinv
  | succ fuel ih =>
    intro s r s2 hinv heq
    simp only [dijkstraLoop] at heq
    split at heq
    · cases heq; exact hinv
    case _ h2 hpop =>
      cases heq
      exact ⟨hinv.1, fun i hi => hinv.2.1 i (popH_sub hpop i hi), hinv.2.2⟩
    case _ did h2 hpop =>
      have hsub : ∀ i ∈ h2, i ∈ s.apps := fun i hi => hinv.2.1 i (popH_sub hpop i hi)
      have hdid : did ∈ s.apps := hinv.2.1 did (popH_head_mem hpop)
      split at heq
      · cases heq
        exact ⟨hinv.1, hsub, hinv.2.2⟩
      · split at heq
        · cases heq
          exact ⟨hinv.1, hsub, hinv.2.2⟩
        case _ nd hget =>
          have hndid : nd.id = did := by
            have := List.find?_some hget
            simpa using this
          have hndmem : nd ∈ gr.nodes := List.mem_of_find?_eq_some hget
          split at heq
          case _ err ds3 h3 apps3 hrel =>
            cases heq
            exact (relaxEdges_c5 nd.id nd.getAdjacents s.ds h2 s.apps _ _ _ _
              (fun e2 he2 => hw nd hndmem e2 he2) (hndid ▸ hdid)
              ⟨hinv.1, hsub, hinv.2.2⟩ hrel).1
          case _ ds3 h3 apps3 hrel =>
            refine ih _ _ _ ?_ heq
            exact (relaxEdges_c5 nd.id nd.getAdjacents s.ds h2 s.apps _ _ _ _
              (fun e2 he2 => hw nd hndmem e2 he2) (hndid ▸ hdid)
              ⟨hinv.1, hsub, hinv.2.2⟩ hrel).1

/-- C5: during a single `calc` run on a graph with non-negative edge
weights, each node id is appended to the heap at most once: the append trace
of the instrumented run has no duplicates.  (An id is appended only from the
sentinel branch `dist_adj.distance < 0`, and once appended its recorded
distance is non-negative forever, so the sentinel branch can never fire for
it again; later improvements go through `reconstruct`.) -/
theorem append_at_most_once (gr : Graph) (stId edId : String)
    (hw : ∀ nd ∈ gr.nodes, ∀ e ∈ nd.adj, 0 ≤ e.distance) :
    (calcT gr stId edId).2.apps.Nodup := by
  unfold calcT
  split
  · simp
  case _ nd hget =>
    simp only [appendH_nil]
    have hinit : C5Inv (fun k => if k = nd.id then some ⟨nd.id, 0, none⟩ else initDs gr k)
        [nd.id] [nd.id] := by
      refine ⟨by simp, by simp, ?_, ?_⟩
      · intro i hi
        simp only [List.mem_singleton] at hi
        subst hi
        refine ⟨⟨nd.id, 0, none⟩, ?_, by simp⟩
        simp
      · intro i d hd hdneg
        simp only [List.mem_singleton]
        intro hie
        subst hie
        simp only [if_pos rfl] at hd
        obtain rfl : (⟨nd.id, 0, none⟩ : Distance) = d := by simpa using hd
        simp at hdneg
    split
    case _ e s2 hloop =>
      exact (dijkstraLoop_c5 gr edId hw _ _ _ _ hinit hloop).1
    case _ s2 hloop =>
      have h5 := (dijkstraLoop_c5 gr edId hw _ _ _ _ hinit hloop).1
      split <;> exact h5

theorem append_at_most_once_witness :
    (∀ nd ∈ graphC1.nodes, ∀ e ∈ nd.adj, (0 : Int) ≤ e.distance) ∧
    (calcT graphC1 "A" "D").2.apps.Nodup :=
  ⟨by decide, append_at_most_once graphC1 "A" "D" (by decide)⟩

end AppendOnce

/-! ### C6: which errors `calc` can raise, and exactly when -/

section ErrorConditions

variable {α β : Type} {comp : α → α → Bool} {eqp : α → β → Bool}

theorem popH_ok (comp : α → α → Bool) (l : List α) :
    ∃ r, popH comp l = .ok r := by
  unfold popH
  split
  · exact ⟨_, rfl⟩
  · exact ⟨_, rfl⟩
  case _ x y rest =>
    split
    case _ => exact ⟨_, rfl⟩
    case _ e htop =>
      exfalso
      unfold reconstructTopdownFull at htop
      split at htop
      · cases htop
      · unfold siftDown at htop
        obtain ⟨l3, h3⟩ := siftDownAux_ok comp _ (((x :: y :: rest).dropLast).set 0
          (rest.getLastD y)) 0
        rw [h3] at htop
        cases htop

theorem popH_none_eq {l l2 : List α} (h : popH comp l = .ok (none, l2)) :
    l = [] ∧ l2 = [] := by
  unfold popH at h
  split at h
  · cases h; exact ⟨rfl, rfl⟩
  · cases h
  · split at h <;> cases h

theorem popH_some_length {l l2 : List α} {d : α} (h : popH comp l = .ok (some d, l2)) :
    l2.length + 1 = l.length := by
  unfold popH at h
  split at h
  · cases h
  · cases h; rfl
  case _ x y rest =>
    split at h
    case _ l3 htop =>
      cases h
      unfold reconstructTopdownFull at htop
      have hmlen : (((d :: y :: rest).dropLast).set 0 (rest.getLastD y)).length =
          (d :: y :: rest).length - 1 := by
        rw [List.length_set, List.length_dropLast]
      split at htop
      · cases htop
        simp only [hmlen, List.length_cons]
        omega
      · unfold siftDown at htop
        rw [siftDownAux_length _ _ _ _ htop, hmlen]
        simp only [List.length_cons]
        omega
    case _ => cases h

theorem appendH_length (comp : α → α → Bool) (l : List α) (x : α) :
    (appendH comp l x).length = l.length + 1 := by
  unfold appendH reconstructBottomupFull
  split
  · simp
  · unfold siftUp
    rw [siftUpAux_length]
    simp

theorem reconstructH_length {l l2 : List α} {t : β} {dir : Bool}
    (h : reconstructH comp eqp l t dir = .ok l2) : l2.length = l.length := by
  unfold reconstructH at h
  split at h
  · cases h; rfl
  · split at h
    · cases h
      unfold siftUp
      rw [siftUpAux_length]
    · unfold siftDown at h
      exact siftDownAux_length _ _ _ _ h

theorem relaxEdges_err (ndId : String) :
    ∀ (edges : List Edge) (ds : DsMap) (h apps : List String) (e : PyErr)
      (ds2 : DsMap) (h2 apps2 : List String),
      relaxEdges ndId edges ds h apps = (some e, ds2, h2, apps2) →
      ∃ k, e = .keyError k := by
  intro edges
  induction edges with
  | nil => intro ds h apps e ds2 h2 apps2 heq; cases heq
  | cons e0 rest ih =>
    intro ds h apps e ds2 h2 apps2 heq
    simp only [relaxEdges] at heq
    split at heq
    · cases heq; exact ⟨ndId, rfl⟩
    · split at heq
      · cases heq; exact ⟨e0.dstId, rfl⟩
      · split at heq
        · exact ih _ _ _ _ _ _ _ heq
        · split at heq
          · split at heq
            case _ hrec => exact ih _ _ _ _ _ _ _ heq
            case _ err hrec =>
              exfalso
              obtain ⟨l3, h3⟩ := reconstructH_bottomup_ok (heapComp _) heapEq h _
              rw [h3] at hrec
              cases hrec
          · exact ih _ _ _ _ _ _ _ heq

theorem pathBuild_err (ds : DsMap) :
    ∀ (fuel : Nat) (i : String) (e : PyErr), pathBuild ds fuel i = .error e →
      e = .nonterm ∨ ∃ k, e = .keyError k := by
  intro fuel
  induction fuel with
  | zero => intro i e h; cases h; exact Or.inl rfl
  | succ fuel ih =>
    intro i e h
    simp only [pathBuild] at h
    split at h
    · cases h; exact Or.inr ⟨i, rfl⟩
    · split at h
      · cases h
      · split at h
        · cases h
        case _ e2 hrec => cases h; exact ih _ _ hrec

theorem dijkstraLoop_err (gr : Graph) (edId : String) :
    ∀ (fuel : Nat) (s : RunSt) (e : PyErr) (s2 : RunSt),
      dijkstraLoop gr edId fuel s = (some e, s2) →
      e = .nonterm ∨ e = .runtimeError ["Cannot reach destination"] ∨
        (∃ d, e = .runtimeError ["Invalid node id: " ++ d]) ∨ ∃ k, e = .keyError k := by
  intro fuel
  induction fuel with
  | zero => intro s e s2 h; cases h; exact Or.inl rfl
  | succ fuel ih =>
    intro s e s2 h
    simp only [dijkstraLoop] at h
    split at h
    case _ e2 hpop =>
      exfalso
      obtain ⟨r, hr⟩ := popH_ok (heapComp s.ds) s.h
      rw [hr] at hpop
      cases hpop
    case _ h2 hpop =>
      cases h
      exact Or.inr (Or.inl rfl)
    case _ did h2 hpop =>
      split at h
      · cases h
      · split at h
        · cases h
          exact Or.inr (Or.inr (Or.inl ⟨did, rfl⟩))
        · split at h
          case _ err ds3 h3 apps3 hrel =>
            cases h
            exact Or.inr (Or.inr (Or.inr (relaxEdges_err _ _ _ _ _ _ _ _ _ hrel)))
          case _ => exact ih _ _ _ h

theorem isExist_get {gr : Graph} {i : String} (h : gr.isExist i = true) :
    ∃ nd, gr.get i = some nd := by
  unfold Graph.get
  cases hf : gr.nodes.find? (fun nd => nd.id == i) with
  | some nd => exact ⟨nd, rfl⟩
  | none =>
    exfalso
    rw [List.find?_eq_none] at hf
    unfold Graph.isExist at h
    rw [List.any_eq_true] at h
    obtain ⟨nd, hmem, hid⟩ := h
    exact hf nd hmem hid

theorem length_le_of_nodup_subset {l m : List String} (h1 : l.Nodup)
    (h2 : ∀ x ∈ l, x ∈ m) : l.length ≤ m.length := by
  have h3 : l.toFinset.card = l.length := List.toFinset_card_of_nodup h1
  have h4 : l.toFinset ⊆ m.toFinset := by
    intro x hx
    simp only [List.mem_toFinset] at hx ⊢
    exact h2 x hx
  have h5 : m.toFinset.card ≤ m.length := m.toFinset_card_le
  have h6 := Finset.card_le_card h4
  omega

theorem mem_ids_of_isExist {gr : Graph} {i : String} (h : gr.isExist i = true) :
    i ∈ gr.nodes.map Node.id := by
  unfold Graph.isExist at h
  rw [List.any_eq_true] at h
  obtain ⟨nd, hmem, hid⟩ := h
  rw [List.mem_map]
  exact ⟨nd, hmem, by simpa using hid⟩

theorem relaxEdges_c6 (gr : Graph) (ndId : String) :
    ∀ (edges : List Edge) (ds : DsMap) (h apps : List String)
      (e? : Option PyErr) (ds2 : DsMap) (h2 apps2 : List String),
      (∀ e ∈ edges, gr.isExist e.dstId = true) →
      (ds ndId).isSome = true →
      (∀ i ∈ apps, gr.isExist i = true) →
      (∀ i, (ds i).isSome = true ↔ gr.isExist i = true) →
      relaxEdges ndId edges ds h apps = (e?, ds2, h2, apps2) →
      e? = none ∧ (∀ i ∈ apps2, gr.isExist i = true) ∧
        (∀ i, (ds2 i).isSome = true ↔ gr.isExist i = true) ∧
        apps2.length + h.length = apps.length + h2.length := by
  intro edges
  induction edges with
  | nil =>
    intro ds h apps e? ds2 h2 apps2 _ _ hsub hdom heq
    cases heq
    exact ⟨rfl, hsub, hdom, rfl⟩
  | cons e rest ih =>
    intro ds h apps e? ds2 h2 apps2 hcl hnds hsub hdom heq
    simp only [relaxEdges] at heq
    split at heq
    case _ hcur =>
      rw [hcur] at hnds
      cases hnds
    case _ distCur hcur =>
      split at heq
      case _ hadj =>
        exfalso
        have h1 : gr.isExist e.dstId = true := hcl e (by simp)
        have h2 := (hdom e.dstId).mpr h1
        rw [hadj] at h2
        cases h2
      case _ distAdj hadj =>
        have hclrest : ∀ e2 ∈ rest, gr.isExist e2.dstId = true :=
          fun e2 he2 => hcl e2 (by simp [he2])
        have hdomN : ∀ i, ((fun k => if k = e.dstId then some { distAdj with distance := distCur.distance + e.distance, parent := some ndId } else ds k) i).isSome = true ↔ gr.isExist i = true := by
          intro i
          by_cases hie : i = e.dstId
          · subst hie
            simp only [if_pos rfl]
            simpa using hcl e (by simp)
          · simp only [if_neg hie]
            exact hdom i
        have hndsN : ((fun k => if k = e.dstId then some { distAdj with distance := distCur.distance + e.distance, parent := some ndId } else ds k) ndId).isSome = true := by
          by_cases hie : ndId = e.dstId
          · subst hie
            simp
          · simp only [if_neg hie]
            exact hnds
        split at heq
        case _ hneg =>
          have hsubN : ∀ i ∈ apps ++ [e.dstId], gr.isExist i = true := by
            intro i hi
            rcases List.mem_append.mp hi with h9 | h9
            · exact hsub i h9
            · simp only [List.mem_singleton] at h9
              subst h9
              exact hcl e (by simp)
          obtain ⟨he, hs, hd, hl⟩ := ih _ _ _ _ _ _ _ hclrest hndsN hsubN hdomN heq
          refine ⟨he, hs, hd, ?_⟩
          rw [appendH_length] at hl
          simp only [List.length_append, List.length_singleton] at hl
          omega
        case _ hneg =>
          split at heq
          case _ hlt =>
            split at heq
            case _ h3 hrec =>
              obtain ⟨he, hs, hd, hl⟩ := ih _ _ _ _ _ _ _ hclrest hndsN hsub hdomN heq
              refine ⟨he, hs, hd, ?_⟩
              rw [reconstructH_length hrec] at hl
              omega
            case _ err hrec =>
              exfalso
              obtain ⟨l3, h3⟩ := reconstructH_bottomup_ok (heapComp _) heapEq h _
              rw [h3] at hrec
              cases hrec
          case _ =>
            exact ih _ _ _ _ _ _ _ hclrest hnds hsub hdom heq

theorem dijkstraLoop_characterize (gr : Graph) (edId : String) (hwf : gr.wf) :
    ∀ (fuel : Nat) (s : RunSt) (r : Option PyErr) (s2 : RunSt),
      C5Inv s.ds s.h s.apps →
      (∀ i ∈ s.apps, gr.isExist i = true) →
      (∀ i, (s.ds i).isSome = true ↔ gr.isExist i = true) →
      s.apps.length = s.pops.length + s.h.length →
      edId ∉ s.pops →
      gr.nodes.length + 1 ≤ fuel + s.pops.length →
      dijkstraLoop gr edId fuel s = (r, s2) →
      (r = none ∧ edId ∈ s2.pops) ∨
        (r = some (.runtimeError ["Cannot reach destination"]) ∧ s2.h = [] ∧
          edId ∉ s2.pops) := by
  intro fuel
  induction fuel with
  | zero =>
    intro s r s2 hc5 hsub hdom hlen hed hfuel heq
    exfalso
    have h1 : s.apps.length ≤ gr.nodes.length := by
      have h2 : s.apps.length ≤ (gr.nodes.map Node.id).length :=
        length_le_of_nodup_subset hc5.1 fun x hx => mem_ids_of_isExist (hsub x hx)
      simpa using h2
    omega
  | succ fuel ih =>
    intro s r s2 hc5 hsub hdom hlen hed hfuel heq
    simp only [dijkstraLoop] at heq
    split at heq
    case _ e2 hpop =>
      exfalso
      obtain ⟨r2, hr⟩ := popH_ok (heapComp s.ds) s.h
      rw [hr] at hpop
      cases hpop
    case _ h2 hpop =>
      cases heq
      exact Or.inr ⟨rfl, (popH_none_eq hpop).2, hed⟩
    case _ did h2 hpop =>
      have hhne : s.h ≠ [] := by
        intro hnil
        rw [hnil] at hpop
        cases hpop
      have hh2len : h2.length + 1 = s.h.length := popH_some_length hpop
      have hdid : did ∈ s.apps := hc5.2.1 did (popH_head_mem hpop)
      have hsubh2 : ∀ i ∈ h2, i ∈ s.apps := fun i hi => hc5.2.1 i (popH_sub hpop i hi)
      split at heq
      case _ hde =>
        cases heq
        subst hde
        exact Or.inl ⟨rfl, by simp⟩
      case _ hde =>
        split at heq
        case _ hget =>
          exfalso
          obtain ⟨nd, hnd⟩ := isExist_get (hsub did hdid)
          rw [hnd] at hget
          cases hget
        case _ nd hget =>
          have hndid : nd.id = did := by
            have := List.find?_some hget
            simpa using this
          have hndmem : nd ∈ gr.nodes := List.mem_of_find?_eq_some hget
          have hcl : ∀ e ∈ nd.getAdjacents, gr.isExist e.dstId = true :=
            fun e he => (hwf.2 nd hndmem e he).2
          have hw : ∀ e ∈ nd.getAdjacents, 0 ≤ e.distance :=
            fun e he => (hwf.2 nd hndmem e he).1
          have hnds : (s.ds nd.id).isSome = true :=
            (hdom nd.id).mpr (hndid ▸ hsub did hdid)
          split at heq
          case _ err ds3 h3 apps3 hrel =>
            exfalso
            have := (relaxEdges_c6 gr nd.id nd.getAdjacents s.ds h2 s.apps _ _ _ _
              hcl hnds hsub hdom hrel).1
            cases this
          case _ ds3 h3 apps3 hrel =>
            obtain ⟨_, hs3, hd3, hl3⟩ := relaxEdges_c6 gr nd.id nd.getAdjacents s.ds h2
              s.apps _ _ _ _ hcl hnds hsub hdom hrel
            have hc53 := (relaxEdges_c5 nd.id nd.getAdjacents s.ds h2 s.apps _ _ _ _
              hw (hndid ▸ hdid) ⟨hc5.1, hsubh2, hc5.2.2⟩ hrel).1
            refine ih _ _ _ hc53 hs3 hd3 ?_ ?_ ?_ heq
            · simp only [List.length_append, List.length_singleton]
              omega
            · simp only [List.mem_append, List.mem_singleton]
              rintro (h9 | h9)
              · exact hed h9
              · exact hde h9.symm
            · simp only [List.length_append, List.length_singleton]
              omega

/-- C6 amended: `calc` fails with `RuntimeError("Node of stId is missing.",
stId)` — raised before the search loop — exactly when the source id is not in
the graph; on a well-formed graph (unique node ids, non-negative weights,
closed adjacency) it fails with `RuntimeError("Cannot reach destination")`
exactly when the heap is exhausted (final heap empty) without the target
ever being popped.  The two failures are distinguishable only by their
message arguments: both are instances of the same generic `RuntimeError`
class (see the counterexample), not distinct error kinds. -/
theorem calc_error_conditions (gr : Graph) (st ed : String) :
    (ShortestPath.calc gr st ed =
        .error (.runtimeError ["Node of stId is missing.", st]) ↔ gr.get st = none) ∧
    (gr.wf →
      (ShortestPath.calc gr st ed = .error (.runtimeError ["Cannot reach destination"]) ↔
        (gr.get st).isSome = true ∧ ed ∉ (calcT gr st ed).2.pops ∧
          (calcT gr st ed).2.h = [])) := by
  cases hget : gr.get st with
  | none =>
    constructor
    · constructor
      · intro _
        rfl
      · intro _
        unfold ShortestPath.calc calcT
        rw [hget]
    · intro _
      constructor
      · intro hcalc
        unfold ShortestPath.calc calcT at hcalc
        rw [hget] at hcalc
        simp at hcalc
      · rintro ⟨hsome, _, _⟩
        simp at hsome
  | some nd =>
    have hndid : nd.id = st := by
      have := List.find?_some hget
      simpa using this
    subst hndid
    obtain ⟨r, s2, hloop⟩ : ∃ r s2, dijkstraLoop gr ed (gr.nodes.length + 1)
        ⟨fun k => if k = nd.id then some ⟨nd.id, 0, none⟩ else initDs gr k,
          [nd.id], [nd.id], []⟩ = (r, s2) := ⟨_, _, rfl⟩
    have hshape_some : ∀ e, r = some e → calcT gr nd.id ed = (.error e, s2) := by
      intro e hr
      rw [hr] at hloop
      unfold calcT
      rw [hget]
      simp only [appendH_nil]
      rw [hloop]
    have hshape_none : r = none → calcT gr nd.id ed =
        (match pathBuild s2.ds (gr.nodes.length + 1) ed with
          | .ok res => (.ok res.reverse, s2)
          | .error e2 => (.error e2, s2)) := by
      intro hr
      rw [hr] at hloop
      unfold calcT
      rw [hget]
      simp only [appendH_nil]
      rw [hloop]
    have hne_missing : ∀ e : PyErr,
        (e = .nonterm ∨ e = .runtimeError ["Cannot reach destination"] ∨
          (∃ d, e = .runtimeError ["Invalid node id: " ++ d]) ∨ ∃ k, e = .keyError k) →
        e ≠ .runtimeError ["Node of stId is missing.", nd.id] := by
      rintro e (rfl | rfl | ⟨d, rfl⟩ | ⟨k, rfl⟩) <;> simp
    constructor
    · constructor
      · intro hcalc
        exfalso
        unfold ShortestPath.calc at hcalc
        cases hr : r with
        | some e =>
          rw [hshape_some e hr] at hcalc
          rw [hr] at hloop
          have := dijkstraLoop_err gr ed _ _ _ _ hloop
          exact hne_missing e this (by cases hcalc; rfl)
        | none =>
          rw [hshape_none hr] at hcalc
          split at hcalc
          · cases hcalc
          case _ e2 hpath =>
            have := pathBuild_err s2.ds _ _ _ hpath
            rcases this with rfl | ⟨k, rfl⟩
            · cases hcalc
            · cases hcalc
      · intro hnone
        cases hnone
    · intro hwf
      have hc5 : C5Inv (fun k => if k = nd.id then some ⟨nd.id, 0, none⟩ else initDs gr k)
          [nd.id] [nd.id] := by
        refine ⟨by simp, by simp, ?_, ?_⟩
        · intro i hi
          simp only [List.mem_singleton] at hi
          subst hi
          refine ⟨⟨nd.id, 0, none⟩, by simp, by simp⟩
        · intro i d hd hdneg
          simp only [List.mem_singleton]
          intro hie
          subst hie
          simp only [if_pos rfl] at hd
          obtain rfl : (⟨nd.id, 0, none⟩ : Distance) = d := by simpa using hd
          simp at hdneg
      have hndex : gr.isExist nd.id = true := by
        unfold Graph.isExist
        rw [List.any_eq_true]
        exact ⟨nd, List.mem_of_find?_eq_some hget, by simp⟩
      have hsub : ∀ i ∈ [nd.id], gr.isExist i = true := by
        intro i hi
        simp only [List.mem_singleton] at hi
        subst hi
        exact hndex
      have hdom : ∀ i, (((fun k => if k = nd.id then some ⟨nd.id, 0, none⟩
          else initDs gr k) : DsMap) i).isSome = true ↔ gr.isExist i = true := by
        intro i
        by_cases hie : i = nd.id
        · subst hie
          simp [hndex]
        · simp only [if_neg hie]
          unfold initDs
          by_cases hex : gr.isExist i <;> simp [hex]
      have hchar := dijkstraLoop_characterize gr ed hwf (gr.nodes.length + 1)
        ⟨fun k => if k = nd.id then some ⟨nd.id, 0, none⟩ else initDs gr k,
          [nd.id], [nd.id], []⟩ r s2 hc5 hsub hdom (by simp) (by simp) (by simp) hloop
      unfold ShortestPath.calc
      rcases hchar with ⟨hr, hed⟩ | ⟨hr, hh, hed⟩
      · rw [hshape_none hr]
        split
        case _ res hpath =>
          constructor
          · intro hcalc
            cases hcalc
          · rintro ⟨_, hnot, _⟩
            exact absurd hed hnot
        case _ e2 hpath =>
          constructor
          · intro hcalc
            exfalso
            have := pathBuild_err s2.ds _ _ _ hpath
            rcases this with rfl | ⟨k, rfl⟩
            · cases hcalc
            · cases hcalc
          · rintro ⟨_, hnot, _⟩
            exact absurd hed hnot
      · rw [hshape_some _ hr]
        constructor
        · intro _
          exact ⟨rfl, hed, hh⟩
        · intro _
          rfl

theorem calc_error_conditions_witness :
    (ShortestPath.calc graphIsolated "A" "Z" =
        .error (.runtimeError ["Cannot reach destination"]) ↔
      (graphIsolated.get "A").isSome = true ∧
        "Z" ∉ (calcT graphIsolated "A" "Z").2.pops ∧
        (calcT graphIsolated "A" "Z").2.h = []) :=
  (calc_error_conditions graphIsolated "A" "Z").2 (by decide)

end ErrorConditions

end OsmRouting
